import Mathlib

/-!
# PC4-Concurrente: coordinator (`nodeServer.go`) and worker (`nodeclient.go`)

A shallow embedding of the partition / distribute / collect / rank pipeline.

* Go `string` is `String`; the byte-level library routines the program calls
  (`strings.Split`, `strings.HasPrefix`, `bufio.Scanner`, `strconv.ParseFloat`,
  the `%f` verb of `fmt`) are given as functions on the character list.  All
  delimiters involved are ASCII, so splitting by byte and by character agree.
* Go `float64` is `F64`: IEEE-754 binary64 values with round-to-nearest-even
  addition.  NaN payloads are not distinguished.
* A Go `map` is an association list whose order is the order in which one
  `range` loop visits the entries.  Go does not fix that order, so statements
  about a map quantify over the list order.
* The mutex-protected global `aggregatedRecommendations` is passed explicitly.
-/

/-! ## float64 -/

/-- Number of binary digits of `n` added to `acc`; the first argument is
recursion fuel. -/
def bitLenAux : Nat → Nat → Nat → Nat
  | 0, _, acc => acc
  | fuel + 1, n, acc => if n = 0 then acc else bitLenAux fuel (n / 2) (acc + 1)

/-- Number of binary digits of `n` (`0` for `0`). -/
def bitLen (n : Nat) : Nat := bitLenAux n n 0

/-- IEEE-754 binary64.  `fin neg m e` is the value `(-1)^neg * m * 2^e`; the
values produced by the operations below are in canonical form: `m < 2^53`,
`-1074 ≤ e ≤ 971`, and `2^52 ≤ m` unless `e = -1074`. -/
inductive F64 where
  | nan
  | inf (neg : Bool)
  | fin (neg : Bool) (m : Nat) (e : Int)
  deriving DecidableEq, Repr

namespace F64

/-- Positive zero, the value Go reads from a map for an absent key. -/
def zero : F64 := fin false 0 (-1074)

/-- Round the exact value `(-1)^neg * (m + δ) * 2^e` to binary64, ties to even;
`sticky` says that `0 < δ < 1` (otherwise `δ = 0`). -/
def roundToF64 (neg : Bool) (m : Nat) (e : Int) (sticky : Bool) : F64 :=
  if m = 0 then fin neg 0 (-1074)
  else
    let e1 : Int := max (e + (bitLen m : Int) - 53) (-1074)
    if e1 ≤ e then
      if 971 < e1 then inf neg else fin neg (m * 2 ^ (e - e1).toNat) e1
    else
      let sh : Nat := (e1 - e).toNat
      let q := m / 2 ^ sh
      let r := m % 2 ^ sh
      let half := 2 ^ (sh - 1)
      let up : Bool := decide (half < r) || (decide (r = half) && (sticky || q % 2 == 1))
      let q1 := if up then q + 1 else q
      let q2 := if q1 = 2 ^ 53 then 2 ^ 52 else q1
      let e2 : Int := if q1 = 2 ^ 53 then e1 + 1 else e1
      if 971 < e2 then inf neg else fin neg q2 e2

/-- Nearest binary64 to the rational `(-1)^neg * p / q` (for `0 < q`). -/
def roundRatio (neg : Bool) (p q : Nat) : F64 :=
  let s := bitLen q + 1100
  roundToF64 neg (p * 2 ^ s / q) (-(s : Int)) (decide (p * 2 ^ s % q ≠ 0))

/-- The integer `(-1)^neg * m * 2^(e - emin)`, for `emin ≤ e`. -/
def scaled (neg : Bool) (m : Nat) (e emin : Int) : Int :=
  (if neg then -1 else 1) * ((m : Int) * 2 ^ (e - emin).toNat)

/-- Go `x + y` on `float64`. -/
def add : F64 → F64 → F64
  | nan, _ => nan
  | _, nan => nan
  | inf s, inf t => if s = t then inf s else nan
  | inf s, fin _ _ _ => inf s
  | fin _ _ _, inf t => inf t
  | fin s m e, fin t n f =>
    let emin := min e f
    let c := scaled s m e emin + scaled t n f emin
    if c = 0 then fin (s && t) 0 (-1074)
    else roundToF64 (decide (c < 0)) c.natAbs emin false

/-- Go `x > y` on `float64`: false as soon as one side is NaN. -/
def gt : F64 → F64 → Bool
  | nan, _ => false
  | _, nan => false
  | inf s, inf t => !s && t
  | inf s, fin _ _ _ => !s
  | fin _ _ _, inf t => t
  | fin s m e, fin t n f =>
    decide (scaled t n f (min e f) < scaled s m e (min e f))

/-- Go `x >= y` on `float64`: false as soon as one side is NaN. -/
def ge : F64 → F64 → Bool
  | nan, _ => false
  | _, nan => false
  | inf s, inf t => !s || t
  | inf s, fin _ _ _ => !s
  | fin _ _ _, inf t => t
  | fin s m e, fin t n f =>
    decide (scaled t n f (min e f) ≤ scaled s m e (min e f))

/-- Whether the value is a NaN. -/
def isNaN : F64 → Bool
  | nan => true
  | _ => false

/-- The binary64 value of a natural number. -/
def ofNat (n : Nat) : F64 := roundToF64 false n 0 false

end F64

/-! ## Library routines on strings -/

/-- Go `strings.Split(s, sep)` for a one-character separator, on characters:
the result always has one more piece than `s` has separators. -/
def splitChars (sep : Char) : List Char → List (List Char)
  | [] => [[]]
  | c :: cs =>
    if c = sep then [] :: splitChars sep cs
    else
      match splitChars sep cs with
      | [] => [[c]]
      | p :: ps => (c :: p) :: ps

/-- Go `strings.Split(s, sep)` for a one-character separator. -/
def stringsSplit (s : String) (sep : Char) : List String :=
  (splitChars sep s.data).map String.mk

/-- Go `strings.HasPrefix(s, p)`. -/
def stringsHasPrefix (s p : String) : Bool := p.data.isPrefixOf s.data

/-- Go `unicode.IsSpace`, the characters removed by `strings.TrimSpace`. -/
def isSpace (c : Char) : Bool :=
  let n := c.toNat
  (9 ≤ n && n ≤ 13) || n = 32 || n = 0x85 || n = 0xA0 || n = 0x1680 ||
    (0x2000 ≤ n && n ≤ 0x200A) || n = 0x2028 || n = 0x2029 || n = 0x202F ||
    n = 0x205F || n = 0x3000

/-- Go `strings.TrimSpace`. -/
def stringsTrimSpace (s : String) : String :=
  String.mk ((s.data.dropWhile isSpace).reverse.dropWhile isSpace).reverse

/-- Length in bytes of the UTF-8 encoding, Go `len(s)`. -/
def utf8Len : List Char → Nat
  | [] => 0
  | c :: cs =>
    (if c.toNat < 128 then 1 else if c.toNat < 2048 then 2
      else if c.toNat < 65536 then 3 else 4) + utf8Len cs

/-- The constant `bufio.MaxScanTokenSize`: a line of this many bytes or more
does not fit the scanner buffer. -/
def maxScanTokenSize : Nat := 64 * 1024

/-- The helper `dropCR` of `bufio.ScanLines`: remove one trailing carriage return. -/
def dropCR (line : List Char) : List Char :=
  if line.getLast? = some (Char.ofNat 13) then line.dropLast else line

/-- The lines a `bufio.Scanner` (default split function `ScanLines`, default
buffer) yields on a byte stream that is followed by end of file.  `cur` holds
the characters of the line being read.  A line that reaches
`maxScanTokenSize` bytes makes `Scan` fail with `ErrTooLong`, which ends the
loop `for scanner.Scan()`. -/
def scanLinesAux (cur : List Char) : List Char → List String
  | [] =>
    if cur = [] then []
    else if maxScanTokenSize ≤ utf8Len cur then []
    else [String.mk (dropCR cur)]
  | c :: cs =>
    if c = Char.ofNat 10 then
      if maxScanTokenSize ≤ utf8Len cur then []
      else String.mk (dropCR cur) :: scanLinesAux [] cs
    else scanLinesAux (cur ++ [c]) cs

/-- The successive values of `scanner.Text()` over a whole stream. -/
def scanLines (stream : String) : List String := scanLinesAux [] stream.data

/-! ## strconv.ParseFloat and the `%f` verb -/

/-- Decimal digit value of a character. -/
def decDigit? (c : Char) : Option Nat :=
  if 48 ≤ c.toNat ∧ c.toNat ≤ 57 then some (c.toNat - 48) else none

/-- Hexadecimal letter value (`a`–`f`, either case) of a character. -/
def hexLetter? (c : Char) : Option Nat :=
  if 97 ≤ c.toNat ∧ c.toNat ≤ 102 then some (c.toNat - 87)
  else if 65 ≤ c.toNat ∧ c.toNat ≤ 70 then some (c.toNat - 55)
  else none

/-- ASCII upper case to lower case, as in `commonPrefixLenIgnoreCase`. -/
def asciiLower (c : Char) : Char :=
  if 65 ≤ c.toNat ∧ c.toNat ≤ 90 then Char.ofNat (c.toNat + 32) else c

/-- Scanner state of the mantissa loop of `strconv.readFloat`. -/
structure MantState where
  /-- Value of the digits read so far. -/
  mant : Nat := 0
  /-- Number of digits read after the point. -/
  frac : Nat := 0
  sawdot : Bool := false
  sawdigits : Bool := false
  underscores : Bool := false
  deriving Repr

/-- The mantissa loop of `strconv.readFloat`: consume digits, underscores and
at most one point; return the state and the unread rest. -/
def readMant (hex : Bool) (st : MantState) : List Char → MantState × List Char
  | [] => (st, [])
  | c :: cs =>
    if c = '_' then readMant hex { st with underscores := true } cs
    else if c = '.' then
      if st.sawdot then (st, c :: cs) else readMant hex { st with sawdot := true } cs
    else
      let base := if hex then 16 else 10
      let digit := match decDigit? c with
        | some d => some d
        | none => if hex then hexLetter? c else none
      match digit with
      | some d =>
        readMant hex { st with mant := st.mant * base + d, sawdigits := true,
                               frac := if st.sawdot then st.frac + 1 else st.frac } cs
      | none => (st, c :: cs)

/-- The exponent digits of `strconv.readFloat`: digits and underscores; the
accumulated value stops growing once it has reached 10000.  Returns the value,
whether an underscore was seen, and the unread rest. -/
def readExpDigits (e : Nat) (us : Bool) : List Char → Nat × Bool × List Char
  | [] => (e, us, [])
  | c :: cs =>
    if c = '_' then readExpDigits e true cs
    else match decDigit? c with
      | some d => readExpDigits (if e < 10000 then e * 10 + d else e) us cs
      | none => (e, us, c :: cs)

/-- The scan of `strconv.underscoreOK` after sign and base prefix; `saw` is
`0` at the start, `1` after a digit or base prefix, `2` after an underscore,
`3` after anything else. -/
def underscoreScan (hex : Bool) (saw : Nat) : List Char → Bool
  | [] => saw != 2
  | c :: cs =>
    if (decDigit? c).isSome || (hex && (hexLetter? c).isSome) then underscoreScan hex 1 cs
    else if c = '_' then
      if saw != 1 then false else underscoreScan hex 2 cs
    else if saw = 2 then false
    else underscoreScan hex 3 cs

/-- Go `strconv.underscoreOK`: underscores only between digits, or between a
base prefix and a digit. -/
def underscoreOK (s : List Char) : Bool :=
  let s1 := match s with
    | c :: cs => if c = '-' ∨ c = '+' then cs else s
    | [] => s
  match s1 with
  | '0' :: b :: rest =>
    if b = 'x' ∨ b = 'X' then underscoreScan true 1 rest
    else if b = 'b' ∨ b = 'B' ∨ b = 'o' ∨ b = 'O' then underscoreScan false 1 rest
    else underscoreScan false 0 s1
  | _ => underscoreScan false 0 s1

/-- Length of the longest common start of `s` and `p`, ignoring ASCII case in `s`. -/
def commonLenIgnoreCase : List Char → List Char → Nat
  | c :: cs, p :: ps => if asciiLower c = p then commonLenIgnoreCase cs ps + 1 else 0
  | _, _ => 0

/-- Go `strconv.special` restricted to whole-string matches: `NaN`, and
`Inf` / `Infinity` with an optional sign, in any letter case. -/
def parseSpecial (s : List Char) : Option F64 :=
  let infLen (t : List Char) : Nat :=
    let n := commonLenIgnoreCase t "infinity".data
    if 3 < n ∧ n < 8 then 3 else n
  let isInf (t : List Char) : Bool := (infLen t = 3 ∨ infLen t = 8) ∧ infLen t = t.length
  match s with
  | '+' :: t => if isInf t then some (F64.inf false) else none
  | '-' :: t => if isInf t then some (F64.inf true) else none
  | _ =>
    if isInf s then some (F64.inf false)
    else if commonLenIgnoreCase s "nan".data = 3 ∧ s.length = 3 then some F64.nan
    else none

/-- Go `strconv.ParseFloat(s, 64)` as `(f, err == nil)`.  A syntax error gives
`(0, false)`; a value beyond the binary64 range gives `(±Inf, false)`;
otherwise `f` is the binary64 nearest to the number written in `s` (decimal or
hexadecimal floating-point literal, `Inf`, `Infinity`, `NaN`). -/
def strconvParseFloat (str : String) : F64 × Bool :=
  let s := str.data
  match parseSpecial s with
  | some v => (v, true)
  | none =>
    let (neg, s1) : Bool × List Char := match s with
      | '+' :: t => (false, t)
      | '-' :: t => (true, t)
      | _ => (false, s)
    let (hex, s2) : Bool × List Char := match s1 with
      | '0' :: x :: d :: t => if x = 'x' ∨ x = 'X' then (true, d :: t) else (false, s1)
      | _ => (false, s1)
    let (st, s3) := readMant hex {} s2
    if !st.sawdigits then (F64.zero, false)
    else
      let expChar (c : Char) : Bool := if hex then c = 'p' ∨ c = 'P' else c = 'e' ∨ c = 'E'
      let tail : Option (Int × Bool × List Char) := match s3 with
        | c :: t =>
          if expChar c then
            let (eneg, t1) : Bool × List Char := match t with
              | '+' :: u => (false, u)
              | '-' :: u => (true, u)
              | _ => (false, t)
            match t1 with
            | d :: _ =>
              if (decDigit? d).isSome then
                let (e, us, rest) := readExpDigits 0 false t1
                some (if eneg then -(e : Int) else (e : Int), us, rest)
              else none
            | [] => none
          else if hex then none else some (0, false, s3)
        | [] => if hex then none else some (0, false, [])
      match tail with
      | none => (F64.zero, false)
      | some (e, us, rest) =>
        if rest ≠ [] then (F64.zero, false)
        else if (st.underscores || us) && !underscoreOK s then (F64.zero, false)
        else
          let v : F64 :=
            if hex then F64.roundToF64 neg st.mant (e - 4 * (st.frac : Int)) false
            else
              let k : Int := e - (st.frac : Int)
              if 0 ≤ k then F64.roundToF64 neg (st.mant * 10 ^ k.toNat) 0 false
              else F64.roundRatio neg st.mant (10 ^ (-k).toNat)
          match v with
          | F64.inf _ => (v, false)
          | _ => (v, true)

/-- Decimal digits of `n` left-padded with zeros to `width` characters. -/
def padDigits (width n : Nat) : List Char :=
  let ds := Nat.toDigits 10 n
  List.replicate (width - ds.length) '0' ++ ds

/-- The text `fmt` produces for a `float64` under the verb `%f`: the exact
value rounded to six decimals, ties to even. -/
def formatF (x : F64) : List Char :=
  match x with
  | F64.nan => "NaN".data
  | F64.inf false => "+Inf".data
  | F64.inf true => "-Inf".data
  | F64.fin neg m e =>
    let num : Nat := m * 10 ^ 6 * 2 ^ e.toNat
    let den : Nat := 2 ^ (-e).toNat
    let q := num / den
    let r := num % den
    let n := if den < 2 * r ∨ (2 * r = den ∧ q % 2 = 1) then q + 1 else q
    (if neg then ['-'] else []) ++ Nat.toDigits 10 (n / 10 ^ 6) ++ ['.'] ++ padDigits 6 (n % 10 ^ 6)

/-! ## Data model (both source files declare the same `Rating`) -/

/-- The struct `Rating`. -/
structure Rating where
  UserID : String
  MovieID : String
  Rating : F64
  deriving DecidableEq, Repr

/-- The struct `ClientData` of `nodeServer.go`: one shard. -/
structure ClientData where
  UserID : String
  Data : List Rating
  deriving DecidableEq, Repr

/-- The struct `ClientData` of `nodeclient.go`. -/
structure WorkerClientData where
  TargetUserID : String
  Data : List Rating
  deriving DecidableEq, Repr

/-- The Go type `map[string][]Rating`, entries in `range` order. -/
abbrev UserRatings := List (String × List Rating)

/-- The type of `aggregatedRecommendations`, `map[string]float64`. -/
abbrev AggMap := List (String × F64)

/-- Go `delete(m, key)`. -/
def mapDelete {β : Type} (m : List (String × β)) (key : String) : List (String × β) :=
  m.filter (fun p => decide (p.1 ≠ key))

/-- Go `m[key]` with the comma-ok result. -/
def mapGet {β : Type} : List (String × β) → String → Option β
  | [], _ => none
  | (k, v) :: rest, key => if k = key then some v else mapGet rest key

/-- Apply `f` to the element at index `i`, if there is one. -/
def updateAt {α : Type} (f : α → α) : List α → Nat → List α
  | [], _ => []
  | x :: xs, 0 => f x :: xs
  | x :: xs, i + 1 => x :: updateAt f xs i

/-! ## nodeServer.go: splitDataset -/

/-- The ratings the second loop of `splitDataset` visits, in visiting order:
users in `range` order, the ratings of one user in list order. -/
def remainingRatings (userRatings : UserRatings) (targetUserID : String) : List Rating :=
  (mapDelete userRatings targetUserID).flatMap (fun p => p.2)

/-- One execution of the inner loop body of `splitDataset`
(`clientData[i%numClients].Data = append(..., rating); i++`); `none` is the
run-time panic of `i % 0`. -/
def splitStep (numClients : Nat) (st : List ClientData × Nat) (rating : Rating) :
    Option (List ClientData × Nat) :=
  if numClients = 0 then none
  else
    some (updateAt (fun c => { c with Data := c.Data ++ [rating] }) st.1 (st.2 % numClients),
          st.2 + 1)

/-- The function `splitDataset`.  `none` stands for a run-time panic (negative
`numClients` in `make`, `targetUserRatings[0]` on an empty slice, `i % 0`).
The counter `i` is unbounded here; in Go it is an `int`, which a slice held
in memory cannot overflow. -/
def splitDataset (userRatings : UserRatings) (targetUserRatings : List Rating)
    (numClients : Int) : Option (List ClientData × Nat) :=
  if numClients < 0 then none
  else
    let n := numClients.toNat
    let clientData : List ClientData := List.replicate n { UserID := "", Data := [] }
    let targetCount := targetUserRatings.length
    match targetUserRatings with
    | [] => none
    | t0 :: _ =>
      let clientData := (List.range n).foldl
        (fun cd i => updateAt
          (fun c => { UserID := t0.UserID, Data := c.Data ++ targetUserRatings }) cd i)
        clientData
      let userRatings := mapDelete userRatings t0.UserID
      let final := userRatings.foldlM
        (fun st entry => entry.2.foldlM (splitStep n) st) (clientData, 0)
      final.map (fun st => (st.1, targetCount))

/-- The slice expression `data.Data[:5]` of the start-up preview in `main`.
Go checks the bound against the capacity, which is at least the length, so a
slice of five or more elements is always in range; for a shorter one the
outcome depends on the capacity `append` happened to allocate and is left
undetermined (`none`). -/
def previewFirstFive (data : ClientData) : Option (List Rating) :=
  if 5 ≤ data.Data.length then some (data.Data.take 5) else none

/-- The round-robin share of shard `j`: the ratings whose position `k` in `rs`
has `k % n = j`, in increasing `k`. -/
def roundRobinShare (n j : Nat) (rs : List Rating) : List Rating :=
  (rs.enum.filter (fun p => decide (p.1 % n = j))).map (fun p => p.2)

/-! ## nodeServer.go: handleClient -/

/-- The statement `aggregatedRecommendations[movieID] += score`: an absent
key reads as `0`. -/
def addScore : AggMap → String → F64 → AggMap
  | [], movieID, score => [(movieID, F64.add F64.zero score)]
  | (k, v) :: rest, movieID, score =>
    if k = movieID then (k, F64.add v score) :: rest
    else (k, v) :: addScore rest movieID score

/-- The line `handleClient` writes for one rating, `"%s,%s,%f\n"` without
the newline. -/
def ratingLine (rating : Rating) : String :=
  String.mk (rating.UserID.data ++ [','] ++ rating.MovieID.data ++ [','] ++ formatF rating.Rating)

/-- The header line `handleClient` writes, `"UserID: %s\n"` without the newline. -/
def headerLine (userID : String) : String := String.mk ("UserID: ".data ++ userID.data)

/-- Everything `handleClient` writes to the connection when no write fails:
header, one line per rating, `END`. -/
def handleClientSend (clientData : ClientData) : String :=
  String.mk ((headerLine clientData.UserID).data ++ [Char.ofNat 10] ++
    clientData.Data.flatMap (fun r => (ratingLine r).data ++ [Char.ofNat 10]) ++
    "END".data ++ [Char.ofNat 10])

/-- What one valid result line contributes: `some (movieID, score)` when the
line splits on a space into exactly two parts and the second parses as a
float, `none` when `handleClient` skips the line with `continue`. -/
def parseResultLine (line : String) : Option (String × F64) :=
  match stringsSplit line ' ' with
  | [movieID, scoreText] =>
    match strconvParseFloat scoreText with
    | (score, true) => some (movieID, score)
    | (_, false) => none
  | _ => none

/-- The receive loop of `handleClient` over the lines the scanner yields;
returns `aggregatedRecommendations` as the loop leaves it. -/
def handleClientReceive (agg : AggMap) : List String → AggMap
  | [] => agg
  | line :: rest =>
    if line = "END" then agg
    else
      match parseResultLine line with
      | some (movieID, score) => handleClientReceive (addScore agg movieID score) rest
      | none => handleClientReceive agg rest

/-- One session of `handleClient`: the bytes written and the aggregation map
after the receive loop has read `incoming`. -/
def handleClient (agg : AggMap) (clientData : ClientData) (incoming : String) :
    String × AggMap :=
  (handleClientSend clientData, handleClientReceive agg (scanLines incoming))

/-- Merge a list of `(movieID, score)` contributions with the merge step of
`handleClient`, in list order. -/
def mergeAll (agg : AggMap) (contributions : List (String × F64)) : AggMap :=
  contributions.foldl (fun m c => addScore m c.1 c.2) agg

/-! ## nodeclient.go: the receive loop of main -/

/-- The loop `for scanner.Scan()` of the worker over the lines the scanner
yields. -/
def workerReceive (clientData : WorkerClientData) : List String → WorkerClientData
  | [] => clientData
  | line :: rest =>
    if line = "END" then clientData
    else if stringsHasPrefix line "UserID:" then
      workerReceive
        { clientData with TargetUserID := stringsTrimSpace (String.mk (line.data.drop 7)) } rest
    else
      match stringsSplit line ',' with
      | [f0, f1, f2] =>
        workerReceive
          { clientData with
            Data := clientData.Data ++
              [{ UserID := f0, MovieID := f1, Rating := (strconvParseFloat f2).1 }] } rest
      | _ => workerReceive clientData rest

/-- The shard as the worker holds it after reading what the coordinator sent. -/
def workerDecode (stream : String) : WorkerClientData :=
  workerReceive { TargetUserID := "", Data := [] } (scanLines stream)

/-! ## nodeServer.go: the ranking at the end of main -/

/-- The local struct `Recommendation` of `main`. -/
structure Recommendation where
  MovieID : String
  Score : F64
  deriving DecidableEq, Repr

/-- The comparison passed to `sort.Slice`:
`recommendations[i].Score > recommendations[j].Score`. -/
def recommendationLess (a b : Recommendation) : Bool := F64.gt a.Score b.Score

/-- The inner loop of Go `insertionSort_func`: the new element `x` moves left
past every neighbour `y` with `less x y`.  The sorted part is held reversed,
nearest neighbour first, and so is the result. -/
def sinkLeft (less : Recommendation → Recommendation → Bool) (x : Recommendation) :
    List Recommendation → List Recommendation
  | [] => [x]
  | y :: ys => if less x y then y :: sinkLeft less x ys else x :: y :: ys

/-- Go `insertionSort_func`, which is what `sort.Slice` runs on a slice of at
most 12 elements. -/
def insertionSort (less : Recommendation → Recommendation → Bool)
    (data : List Recommendation) : List Recommendation :=
  (data.foldl (fun sortedRev x => sinkLeft less x sortedRev) []).reverse

/-- The requirement `sort.Slice` puts on `less` (a strict weak ordering),
on the elements of `l`. -/
def StrictWeakOn (less : Recommendation → Recommendation → Bool)
    (l : List Recommendation) : Prop :=
  (∀ a ∈ l, less a a = false) ∧
  (∀ a ∈ l, ∀ b ∈ l, ∀ c ∈ l, less a b = true → less b c = true → less a c = true) ∧
  (∀ a ∈ l, ∀ b ∈ l, ∀ c ∈ l, less a b = false → less b c = false → less a c = false)

/-- What `sort.Slice` guarantees: the result is a rearrangement of the input,
and it is ordered by `less` whenever `less` is a strict weak ordering on the
input.  Nothing is promised about the order of elements that compare equal. -/
def SortSliceContract
    (sortFn : (Recommendation → Recommendation → Bool) → List Recommendation →
      List Recommendation) : Prop :=
  ∀ less l, (sortFn less l).Perm l ∧
    (StrictWeakOn less l → (sortFn less l).Pairwise (fun a b => less b a = false))

/-- The slice `recommendations` that `main` builds by ranging over the map. -/
def collectRecommendations (agg : AggMap) : List Recommendation :=
  agg.map (fun p => { MovieID := p.1, Score := p.2 })

/-- The recommendations `main` prints: the first three elements of the slice
after `sort.Slice`.  `sortFn` is the library sort. -/
def printedRecommendations
    (sortFn : (Recommendation → Recommendation → Bool) → List Recommendation →
      List Recommendation)
    (agg : AggMap) : List Recommendation :=
  (sortFn recommendationLess (collectRecommendations agg)).take 3

/-! ## Order-theoretic reading of float64 comparison -/

/-- The extended rational value of a non-NaN float: `-Inf` is the bottom
element, `+Inf` the top, a finite float its exact value (both zeros are `0`).
NaN is given the bottom value; it is excluded wherever the order is used. -/
def F64.toExtRat : F64 → WithBot (WithTop ℚ)
  | F64.nan => ⊥
  | F64.inf true => ⊥
  | F64.inf false => ((⊤ : WithTop ℚ) : WithBot (WithTop ℚ))
  | F64.fin neg m e =>
    (((((if neg then -1 else 1) * (m : ℚ) * (2 : ℚ) ^ e : ℚ) : WithTop ℚ)) : WithBot (WithTop ℚ))

/-- The rating the worker builds from the line `ratingLine r`: the two IDs as
sent, the score parsed back from its `%f` text (the error result of
`ParseFloat` is discarded by the worker). -/
def decodedRating (r : Rating) : Rating :=
  { UserID := r.UserID, MovieID := r.MovieID,
    Rating := (strconvParseFloat (String.mk (formatF r.Rating))).1 }

/-! ## The scenario of the specification -/

/-- The rating `(U1, M1, 5.0)` of the target user. -/
def scenarioU1 : Rating := { UserID := "U1", MovieID := "M1", Rating := F64.ofNat 5 }

/-- The rating `(U2, M2, 3.0)`. -/
def scenarioU2 : Rating := { UserID := "U2", MovieID := "M2", Rating := F64.ofNat 3 }

/-- The rating `(U3, M2, 4.0)`. -/
def scenarioU3 : Rating := { UserID := "U3", MovieID := "M2", Rating := F64.ofNat 4 }

/-- The dataset of the scenario, visited in the order `U1`, `U2`, `U3`. -/
def scenarioDataset : UserRatings :=
  [("U1", [scenarioU1]), ("U2", [scenarioU2]), ("U3", [scenarioU3])]

/-- The same Go map, visited in the order `U1`, `U3`, `U2`. -/
def scenarioDatasetOtherOrder : UserRatings :=
  [("U1", [scenarioU1]), ("U3", [scenarioU3]), ("U2", [scenarioU2])]

/-- Shard A of the scenario. -/
def scenarioShardA : ClientData := { UserID := "U1", Data := [scenarioU1, scenarioU2] }

/-- Shard B of the scenario. -/
def scenarioShardB : ClientData := { UserID := "U1", Data := [scenarioU1, scenarioU3] }

/-- An aggregation map holding a NaN, in the order `a`, `b`, `c`, `d`; it is
what the lines `a 2`, `b NaN`, `c 3`, `d 4` produce. -/
def nanAggregate : AggMap :=
  [("a", F64.ofNat 2), ("b", F64.nan), ("c", F64.ofNat 3), ("d", F64.ofNat 4)]

/-! ## The result line as the protocol words it -/

/-- The reading of a worker result line taken from the wording of the
protocol, `<movieID> <score>`, and not from `handleClient`: the line holds
exactly one space, the movie ID is the text before it, the score text is the
text after it, and `strconv.ParseFloat` accepts the score text.  The result is
the movie ID and the parsed score; `none` for every other line. -/
def resultLineSpec (line : String) : Option (String × F64) :=
  match line.data.dropWhile (fun c => c != ' ') with
  | [] => none
  | _ :: scoreText =>
    if ' ' ∈ scoreText then none
    else
      match strconvParseFloat (String.mk scoreText) with
      | (score, true) => some (String.mk (line.data.takeWhile (fun c => c != ' ')), score)
      | (_, false) => none

/-! ## Lemmas: lists -/

theorem updateAt_getElem? {α : Type} (f : α → α) (l : List α) (i j : Nat) :
    (updateAt f l i)[j]? = if j = i then l[j]?.map f else l[j]? := by
  induction l generalizing i j with
  | nil => simp [updateAt]
  | cons x xs ih =>
    cases i with
    | zero =>
      cases j with
      | zero => simp [updateAt]
      | succ j => simp [updateAt]
    | succ i =>
      cases j with
      | zero => simp [updateAt]
      | succ j => simp [updateAt, ih]

theorem updateAt_map_range {α : Type} (g : α → α) (F : Nat → α) (n k : Nat) :
    updateAt g ((List.range n).map F) k =
      (List.range n).map (fun j => if j = k then g (F j) else F j) := by
  apply List.ext_getElem?
  intro j
  rw [updateAt_getElem?]
  by_cases hj : j < n
  · simp [List.getElem?_map, List.getElem?_range hj]
    split <;> rfl
  · have h1 : ((List.range n).map F)[j]? = none := by
      apply List.getElem?_eq_none; simp; omega
    have h2 : ((List.range n).map (fun j => if j = k then g (F j) else F j))[j]? = none := by
      apply List.getElem?_eq_none; simp; omega
    rw [h1, h2]; simp

theorem replicate_eq_map_range {α : Type} (n : Nat) (z : α) :
    List.replicate n z = (List.range n).map (fun _ => z) := by
  apply List.ext_getElem?
  intro j
  by_cases hj : j < n
  · simp [List.getElem?_map, List.getElem?_range hj, List.getElem?_replicate, hj]
  · rw [List.getElem?_eq_none, List.getElem?_eq_none] <;> simp <;> omega

/-- The first loop of `splitDataset` rewrites the first `k` slots. -/
theorem firstLoop_range {α : Type} (g : α → α) (F : Nat → α) (n k : Nat) :
    (List.range k).foldl (fun cd i => updateAt g cd i) ((List.range n).map F) =
      (List.range n).map (fun j => if j < k then g (F j) else F j) := by
  induction k with
  | zero => simp
  | succ k ih =>
    rw [List.range_succ, List.foldl_append, ih]
    simp only [List.foldl_cons, List.foldl_nil]
    rw [updateAt_map_range]
    apply List.map_congr_left
    intro j _
    by_cases h1 : j = k
    · subst h1; simp
    · by_cases h2 : j < k
      · have : j < k + 1 := by omega
        simp [h1, h2, this]
      · have : ¬ j < k + 1 := by omega
        simp [h1, h2, this]

theorem foldlM_flatMap {σ β γ : Type} (g : σ → γ → Option σ) (sel : β → List γ)
    (l : List β) (init : σ) :
    l.foldlM (fun st e => (sel e).foldlM g st) init = (l.flatMap sel).foldlM g init := by
  induction l generalizing init with
  | nil => rfl
  | cons e es ih =>
    rw [List.foldlM_cons, List.flatMap_cons, List.foldlM_append]
    cases h : (sel e).foldlM g init with
    | none => rfl
    | some st => simpa using ih st

theorem enumFrom_share_cons (n j i : Nat) (r : Rating) (rs : List Rating) :
    ((List.enumFrom i (r :: rs)).filter (fun p => decide (p.1 % n = j))).map (fun p => p.2) =
      (if i % n = j then [r] else []) ++
        ((List.enumFrom (i + 1) rs).filter (fun p => decide (p.1 % n = j))).map (fun p => p.2) := by
  by_cases h : i % n = j <;> simp [List.enumFrom, List.filter_cons, h]

/-- The second loop of `splitDataset` from counter value `i`. -/
theorem secondLoop_from (n : Nat) (hn : 0 < n) (u : String) (rs : List Rating)
    (base : Nat → List Rating) (i : Nat) :
    rs.foldlM (splitStep n) ((List.range n).map (fun j => ({ UserID := u, Data := base j } : ClientData)), i) =
      some ((List.range n).map (fun j => ({ UserID := u, Data := base j ++
          ((List.enumFrom i rs).filter (fun p => decide (p.1 % n = j))).map (fun p => p.2) } : ClientData)),
        i + rs.length) := by
  induction rs generalizing base i with
  | nil => simp
  | cons r rs ih =>
    rw [List.foldlM_cons]
    have hstep : splitStep n ((List.range n).map (fun j => ({ UserID := u, Data := base j } : ClientData)), i) r =
        some ((List.range n).map (fun j => ({ UserID := u, Data := (base j ++ if i % n = j then [r] else []) } : ClientData)), i + 1) := by
      unfold splitStep
      have hn0 : n ≠ 0 := by omega
      simp only [hn0, if_false]
      rw [updateAt_map_range]
      congr 2
      apply List.map_congr_left
      intro j _
      by_cases h : j = i % n
      · simp [h]
      · have h2 : ¬ i % n = j := fun e => h e.symm
        simp [h, h2]
    rw [hstep]
    simp only [Option.bind_eq_bind, Option.some_bind]
    rw [ih]
    congr 2
    · apply List.map_congr_left
      intro j _
      rw [enumFrom_share_cons]
      simp [List.append_assoc]
    · simp; omega

/-- Closed form of `splitDataset` for at least one client and a non-empty
target slice. -/
theorem splitDataset_closed (userRatings : UserRatings) (t0 : Rating) (ts : List Rating)
    (numClients : Int) (hn : 1 ≤ numClients) :
    splitDataset userRatings (t0 :: ts) numClients =
      some ((List.range numClients.toNat).map (fun j =>
          ({ UserID := t0.UserID,
             Data := (t0 :: ts) ++
               roundRobinShare numClients.toNat j (remainingRatings userRatings t0.UserID) } : ClientData)),
        (t0 :: ts).length) := by
  unfold splitDataset
  have h0 : ¬ numClients < 0 := by omega
  simp only [h0, if_false]
  rw [replicate_eq_map_range, firstLoop_range, foldlM_flatMap]
  have hpos : 0 < numClients.toNat := by omega
  have hfirst : (List.range numClients.toNat).map (fun j =>
        if j < numClients.toNat then
          ({ UserID := t0.UserID, Data := ({ UserID := "", Data := [] } : ClientData).Data ++ (t0 :: ts) } : ClientData)
        else ({ UserID := "", Data := [] } : ClientData)) =
      (List.range numClients.toNat).map (fun _ =>
        ({ UserID := t0.UserID, Data := t0 :: ts } : ClientData)) := by
    apply List.map_congr_left
    intro j hj
    have : j < numClients.toNat := List.mem_range.mp hj
    simp [this]
  rw [hfirst]
  have := secondLoop_from numClients.toNat hpos t0.UserID
    ((mapDelete userRatings t0.UserID).flatMap (fun p => p.2)) (fun _ => t0 :: ts) 0
  rw [this]
  simp [roundRobinShare, remainingRatings, List.enum]

theorem flatMap_single_range (n k : Nat) (r : Rating) :
    (List.range n).flatMap (fun j => if k = j then [r] else []) = if k < n then [r] else [] := by
  induction n with
  | zero => simp
  | succ n ih =>
    rw [List.range_succ, List.flatMap_append, ih]
    by_cases h1 : k < n
    · have h2 : k ≠ n := by omega
      have h3 : k < n + 1 := by omega
      simp [h1, h2, h3]
    · by_cases h2 : k = n
      · subst h2; simp
      · have h3 : ¬ k < n + 1 := by omega
        simp [h1, h2, h3]

theorem flatMap_append_fun_perm {α β : Type} (l : List α) (f g : α → List β) :
    (l.flatMap (fun x => f x ++ g x)).Perm (l.flatMap f ++ l.flatMap g) := by
  induction l with
  | nil => simp
  | cons a l ih =>
    simp only [List.flatMap_cons]
    have h1 : (f a ++ g a ++ l.flatMap (fun x => f x ++ g x)).Perm
        (f a ++ g a ++ (l.flatMap f ++ l.flatMap g)) := List.Perm.append_left _ ih
    refine h1.trans ?_
    have h2 : (g a ++ (l.flatMap f ++ l.flatMap g)).Perm (l.flatMap f ++ (g a ++ l.flatMap g)) := by
      rw [← List.append_assoc, ← List.append_assoc]
      exact List.Perm.append_right _ List.perm_append_comm
    simpa [List.append_assoc] using List.Perm.append_left (f a) h2

/-- The shares of the `n` shards together hold every rating exactly once. -/
theorem shares_perm_from (n : Nat) (hn : 0 < n) (rs : List Rating) (i : Nat) :
    ((List.range n).flatMap (fun j =>
      ((List.enumFrom i rs).filter (fun p => decide (p.1 % n = j))).map (fun p => p.2))).Perm rs := by
  induction rs generalizing i with
  | nil => simp
  | cons r rs ih =>
    have hfun : (fun j => ((List.enumFrom i (r :: rs)).filter
          (fun p => decide (p.1 % n = j))).map (fun p => p.2)) =
        (fun j => (if i % n = j then [r] else []) ++
          ((List.enumFrom (i + 1) rs).filter (fun p => decide (p.1 % n = j))).map (fun p => p.2)) := by
      funext j
      exact enumFrom_share_cons n j i r rs
    rw [hfun]
    refine (flatMap_append_fun_perm _ _ _).trans ?_
    rw [flatMap_single_range, if_pos (Nat.mod_lt _ hn)]
    exact List.Perm.cons r (ih (i + 1))

theorem shares_perm (n : Nat) (hn : 0 < n) (rs : List Rating) :
    ((List.range n).flatMap (fun j => roundRobinShare n j rs)).Perm rs := by
  simpa [roundRobinShare, List.enum] using shares_perm_from n hn rs 0

theorem share_subset_from (n j : Nat) (rs : List Rating) (i : Nat) (r : Rating)
    (h : r ∈ ((List.enumFrom i rs).filter (fun p => decide (p.1 % n = j))).map (fun p => p.2)) :
    r ∈ rs := by
  induction rs generalizing i with
  | nil => simp at h
  | cons x xs ih =>
    rw [enumFrom_share_cons, List.mem_append] at h
    rcases h with h | h
    · by_cases hc : i % n = j
      · simp [hc] at h; simp [h]
      · simp [hc] at h
    · exact List.mem_cons_of_mem _ (ih (i + 1) h)

theorem share_subset (n j : Nat) (rs : List Rating) (r : Rating)
    (h : r ∈ roundRobinShare n j rs) : r ∈ rs := by
  apply share_subset_from n j rs 0 r
  simpa [roundRobinShare, List.enum] using h

theorem sum_coe_map_eq_flatMap {α β : Type} (l : List α) (f : α → List β) :
    (l.map (fun s => (↑(f s) : Multiset β))).sum = (↑(l.flatMap f) : Multiset β) := by
  induction l with
  | nil => simp
  | cons a l ih =>
    simp only [List.map_cons, List.sum_cons, List.flatMap_cons, ih]
    rfl

theorem mem_remainingRatings (userRatings : UserRatings) (target : String) (r : Rating)
    (h : r ∈ remainingRatings userRatings target) :
    ∃ e ∈ userRatings, e.1 ≠ target ∧ r ∈ e.2 := by
  unfold remainingRatings mapDelete at h
  rw [List.mem_flatMap] at h
  obtain ⟨e, he, hr⟩ := h
  rw [List.mem_filter] at he
  exact ⟨e, he.1, by simpa using he.2, hr⟩

/-! ## Claims about splitDataset -/

/-- C1 (partition completeness): with at least one client and a non-empty
target slice, `splitDataset` returns shards that each start with the target
slice, and the multiset sum over all shards of what follows that start is
exactly the multiset of the ratings stored under the non-target keys of the
input: nothing lost, nothing duplicated. -/
theorem splitDataset_partition_complete (userRatings : UserRatings) (t0 : Rating)
    (ts : List Rating) (numClients : Int) (hn : 1 ≤ numClients) :
    ∃ shards, splitDataset userRatings (t0 :: ts) numClients = some (shards, (t0 :: ts).length) ∧
      (∀ s ∈ shards, s.Data.take (t0 :: ts).length = t0 :: ts) ∧
      (shards.map (fun s => (↑(s.Data.drop (t0 :: ts).length) : Multiset Rating))).sum =
        (↑((userRatings.filter (fun p => decide (p.1 ≠ t0.UserID))).flatMap (fun p => p.2)) :
          Multiset Rating) := by
  refine ⟨_, splitDataset_closed userRatings t0 ts numClients hn, ?_, ?_⟩
  · intro s hs
    rw [List.mem_map] at hs
    obtain ⟨j, _, rfl⟩ := hs
    simp
  · rw [sum_coe_map_eq_flatMap, Multiset.coe_eq_coe]
    have hpos : 0 < numClients.toNat := by omega
    have := shares_perm numClients.toNat hpos (remainingRatings userRatings t0.UserID)
    rw [List.flatMap_map]
    simpa [remainingRatings, mapDelete] using this

theorem succ_div_mod (n k : Nat) (hn : 0 < n) :
    ((k + 1) / n = k / n ∧ (k + 1) % n = k % n + 1) ∨
    ((k + 1) / n = k / n + 1 ∧ (k + 1) % n = 0 ∧ k % n + 1 = n) := by
  have h1 := Nat.div_add_mod k n
  have h2 := Nat.mod_lt k hn
  by_cases h : k % n + 1 < n
  · left
    have := (Nat.div_mod_unique (a := k + 1) (d := k / n) (c := k % n + 1) hn).mpr
      ⟨by omega, h⟩
    exact this
  · right
    have h3 : k % n + 1 = n := by omega
    have := (Nat.div_mod_unique (a := k + 1) (d := k / n + 1) (c := 0) hn).mpr
      ⟨by rw [Nat.mul_add]; omega, hn⟩
    exact ⟨this.1, this.2, h3⟩

theorem roundRobinShare_append_single (n j : Nat) (rs : List Rating) (r : Rating) :
    roundRobinShare n j (rs ++ [r]) =
      roundRobinShare n j rs ++ (if rs.length % n = j then [r] else []) := by
  unfold roundRobinShare
  rw [List.enum_append]
  by_cases h : rs.length % n = j <;> simp [List.enumFrom, List.filter_cons, h]

/-- Shard `j` has received one rating per full round plus one if the current
round has already passed it. -/
theorem roundRobinShare_length (n j : Nat) (hj : j < n) (rs : List Rating) :
    (roundRobinShare n j rs).length = rs.length / n + (if j < rs.length % n then 1 else 0) := by
  have hn : 0 < n := by omega
  induction rs using List.reverseRecOn with
  | nil => simp [roundRobinShare]
  | append_singleton rs r ih =>
    rw [roundRobinShare_append_single, List.length_append, ih, List.length_append]
    simp only [List.length_singleton]
    rcases succ_div_mod n rs.length hn with ⟨h1, h2⟩ | ⟨h1, h2, h3⟩
    · simp only [h1, h2]
      by_cases a : rs.length % n = j
      · have b : ¬ j < rs.length % n := by omega
        have c : j < rs.length % n + 1 := by omega
        simp [a, c]
      · by_cases b : j < rs.length % n
        · have c : j < rs.length % n + 1 := by omega
          simp [a, b, c]
        · have c : ¬ j < rs.length % n + 1 := by omega
          simp [a, b, c]
    · simp only [h1, h2]
      by_cases a : rs.length % n = j
      · have b : ¬ j < rs.length % n := by omega
        simp [a]
      · have b : j < rs.length % n := by omega
        simp [a, b]

/-- The rating at position `k` sits in share `k % n` at index `k / n`. -/
theorem roundRobinShare_position (n : Nat) (hn : 0 < n) (rs : List Rating) (k : Nat)
    (hk : k < rs.length) :
    (roundRobinShare n (k % n) rs)[k / n]? = rs[k]? := by
  induction rs using List.reverseRecOn with
  | nil => simp at hk
  | append_singleton rs r ih =>
    rw [roundRobinShare_append_single]
    have hlen := roundRobinShare_length n (k % n) (Nat.mod_lt k hn) rs
    by_cases hk2 : k < rs.length
    · have hidx : k / n < (roundRobinShare n (k % n) rs).length := by
        rw [hlen]
        have h1 := Nat.div_add_mod k n
        have h2 := Nat.div_add_mod rs.length n
        have h3 := Nat.mod_lt k hn
        have h4 := Nat.mod_lt rs.length hn
        by_cases hq : k / n < rs.length / n
        · omega
        · have hq2 : rs.length / n ≤ k / n := by omega
          have hle : k / n ≤ rs.length / n := Nat.div_le_div_right (by omega)
          have heq : k / n = rs.length / n := by omega
          rw [heq] at h1
          have : k % n < rs.length % n := by omega
          simp [this, heq]
      rw [List.getElem?_append_left hidx, ih hk2, List.getElem?_append_left hk2]
    · have hk3 : k = rs.length := by simp at hk; omega
      subst hk3
      simp only [if_true]
      have hidx : (roundRobinShare n (rs.length % n) rs).length = rs.length / n := by
        rw [hlen]; simp
      rw [List.getElem?_append_right (by omega), hidx]
      simp

/-- C2 (target replication): with at least one client and a non-empty target
slice, `splitDataset` returns `numClients` shards and the count
`len(targetUserRatings)`; every shard carries the target user's ID and its
data is the whole target slice, in order, followed only by ratings stored
under non-target keys of the input (hence, when every rating is stored under
its own user ID as `loadDataset` does, by ratings of other users). -/
theorem splitDataset_target_replicated (userRatings : UserRatings) (t0 : Rating)
    (ts : List Rating) (numClients : Int) (hn : 1 ≤ numClients) :
    ∃ shards, splitDataset userRatings (t0 :: ts) numClients = some (shards, (t0 :: ts).length) ∧
      (shards.length : Int) = numClients ∧
      ∀ s ∈ shards, s.UserID = t0.UserID ∧
        ∃ rest, s.Data = (t0 :: ts) ++ rest ∧
          (∀ r ∈ rest, ∃ e ∈ userRatings, e.1 ≠ t0.UserID ∧ r ∈ e.2) ∧
          ((∀ e ∈ userRatings, ∀ r ∈ e.2, r.UserID = e.1) → ∀ r ∈ rest, r.UserID ≠ t0.UserID) := by
  refine ⟨_, splitDataset_closed userRatings t0 ts numClients hn, ?_, ?_⟩
  · simp; omega
  · intro s hs
    rw [List.mem_map] at hs
    obtain ⟨j, _, rfl⟩ := hs
    refine ⟨rfl, _, rfl, ?_, ?_⟩
    · intro r hr
      exact mem_remainingRatings _ _ _ (share_subset _ _ _ _ hr)
    · intro hwf r hr
      obtain ⟨e, he, hne, hmem⟩ := mem_remainingRatings _ _ _ (share_subset _ _ _ _ hr)
      rw [hwf e he r hmem]
      exact hne

/-- C3 (round-robin assignment): let `r_0, r_1, ...` be the remaining ratings
in visiting order (`remainingRatings`).  With at least one client, shard `j`
is the target slice followed by exactly the `r_k` with `k % numClients = j`,
in increasing `k`; `r_k` is element `len(target) + k / numClients` of shard
`k % numClients`; two inputs with the same visiting order give the same
shards; and with two or more clients neighbouring ratings `r_k`, `r_(k+1)`
never share a shard. -/
theorem splitDataset_round_robin (userRatings : UserRatings) (t0 : Rating)
    (ts : List Rating) (numClients : Int) (hn : 1 ≤ numClients) :
    ∃ shards, splitDataset userRatings (t0 :: ts) numClients = some (shards, (t0 :: ts).length) ∧
      (∀ j, j < numClients.toNat →
        shards[j]?.map (fun s => s.Data) =
          some ((t0 :: ts) ++
            roundRobinShare numClients.toNat j (remainingRatings userRatings t0.UserID))) ∧
      (∀ k, k < (remainingRatings userRatings t0.UserID).length →
        (shards[k % numClients.toNat]?.bind
            (fun s => s.Data[(t0 :: ts).length + k / numClients.toNat]?)) =
          (remainingRatings userRatings t0.UserID)[k]?) ∧
      (∀ other : UserRatings,
        remainingRatings other t0.UserID = remainingRatings userRatings t0.UserID →
        splitDataset other (t0 :: ts) numClients = some (shards, (t0 :: ts).length)) ∧
      (2 ≤ numClients → ∀ k, k % numClients.toNat ≠ (k + 1) % numClients.toNat) := by
  have hpos : 0 < numClients.toNat := by omega
  refine ⟨_, splitDataset_closed userRatings t0 ts numClients hn, ?_, ?_, ?_, ?_⟩
  · intro j hj
    simp [List.getElem?_map, List.getElem?_range hj]
  · intro k hk
    have hj : k % numClients.toNat < numClients.toNat := Nat.mod_lt _ hpos
    rw [List.getElem?_map, List.getElem?_range hj]
    simp only [Option.map_some', Option.some_bind]
    rw [List.getElem?_append_right (Nat.le_add_right _ _), Nat.add_sub_cancel_left]
    exact roundRobinShare_position _ hpos _ _ hk
  · intro other hother
    rw [splitDataset_closed other t0 ts numClients hn, hother]
  · intro h2 k
    have h2n : 2 ≤ numClients.toNat := by omega
    rcases succ_div_mod numClients.toNat k hpos with ⟨_, h⟩ | ⟨_, h, h3⟩ <;> omega

/-- C10 (preview bounds): with at least one client and a target user who has
five ratings or more, shard `j` holds `len(target)` ratings plus its
round-robin share, so every shard has at least five ratings, and the preview
`data.Data[:5]` is in range and is the first five target ratings. -/
theorem splitDataset_preview_in_bounds (userRatings : UserRatings) (t0 : Rating)
    (ts : List Rating) (numClients : Int) (hn : 1 ≤ numClients)
    (h5 : 5 ≤ (t0 :: ts).length) :
    ∃ shards, splitDataset userRatings (t0 :: ts) numClients = some (shards, (t0 :: ts).length) ∧
      (∀ j, j < numClients.toNat →
        shards[j]?.map (fun s => s.Data.length) =
          some ((t0 :: ts).length +
            (roundRobinShare numClients.toNat j
              (remainingRatings userRatings t0.UserID)).length)) ∧
      (∀ s ∈ shards, 5 ≤ s.Data.length ∧ previewFirstFive s = some ((t0 :: ts).take 5)) := by
  refine ⟨_, splitDataset_closed userRatings t0 ts numClients hn, ?_, ?_⟩
  · intro j hj
    simp [List.getElem?_map, List.getElem?_range hj]
    omega
  · intro s hs
    rw [List.mem_map] at hs
    obtain ⟨j, _, rfl⟩ := hs
    have hlen : 5 ≤ ((t0 :: ts) ++ roundRobinShare numClients.toNat j
        (remainingRatings userRatings t0.UserID)).length := by
      rw [List.length_append]; omega
    refine ⟨hlen, ?_⟩
    unfold previewFirstFive
    simp only [hlen, if_true]
    rw [List.take_append_of_le_length h5]

/-! ## Lemmas: the aggregation map -/

theorem mapGet_addScore (agg : AggMap) (movieID key : String) (score : F64) :
    mapGet (addScore agg movieID score) key =
      if key = movieID then some (F64.add ((mapGet agg movieID).getD F64.zero) score)
      else mapGet agg key := by
  induction agg with
  | nil =>
    by_cases h : key = movieID
    · simp [addScore, mapGet, h]
    · have h2 : ¬ movieID = key := fun e => h e.symm
      simp [addScore, mapGet, h, h2]
  | cons p rest ih =>
    obtain ⟨k, v⟩ := p
    by_cases hk : k = movieID
    · subst hk
      by_cases h : key = k
      · subst h; simp [addScore, mapGet]
      · have h2 : ¬ k = key := fun e => h e.symm
        simp [addScore, mapGet, h, h2]
    · by_cases h : key = movieID
      · subst h
        simp [addScore, mapGet, hk, ih]
      · by_cases h3 : k = key
        · simp [addScore, mapGet, hk, h3, h]
        · simp [addScore, mapGet, hk, h3, h, ih]

/-- The scores contributed to `key`, in arrival order. -/
theorem mapGet_mergeAll (agg : AggMap) (cs : List (String × F64)) (key : String) :
    mapGet (mergeAll agg cs) key =
      if (cs.filter (fun c => decide (c.1 = key))) = [] then mapGet agg key
      else some (((cs.filter (fun c => decide (c.1 = key))).map (fun c => c.2)).foldl F64.add
        ((mapGet agg key).getD F64.zero)) := by
  induction cs generalizing agg with
  | nil => simp [mergeAll]
  | cons c cs ih =>
    have hstep : mergeAll agg (c :: cs) = mergeAll (addScore agg c.1 c.2) cs := rfl
    rw [hstep, ih, mapGet_addScore]
    by_cases h : c.1 = key
    · subst h
      simp only [List.filter_cons, decide_True, if_true]
      by_cases he : cs.filter (fun d => decide (d.1 = c.1)) = []
      · simp [he]
      · simp [he]
    · have h2 : ¬ key = c.1 := fun e => h e.symm
      have hf : (c :: cs).filter (fun d => decide (d.1 = key)) =
          cs.filter (fun d => decide (d.1 = key)) := by
        simp [List.filter_cons, h]
      rw [hf, if_neg h2]

theorem splitChars_takeWhile (sep : Char) (l : List Char) :
    splitChars sep l =
      l.takeWhile (fun c => c != sep) ::
        (match l.dropWhile (fun c => c != sep) with
          | [] => []
          | _ :: t => splitChars sep t) := by
  induction l with
  | nil => rfl
  | cons c cs ih =>
    by_cases hc : c = sep
    · subst hc
      simp [splitChars]
    · have hb : (c != sep) = true := by simpa using hc
      rw [splitChars, if_neg hc, ih, List.takeWhile_cons, List.dropWhile_cons]
      simp only [hb, if_true]

theorem splitChars_length_of_mem (sep : Char) (l : List Char) (h : sep ∈ l) :
    2 ≤ (splitChars sep l).length := by
  induction l with
  | nil => simp at h
  | cons c cs ih =>
    by_cases hc : c = sep
    · subst hc
      rw [splitChars, if_pos rfl, splitChars_takeWhile]
      simp
    · have hcs : sep ∈ cs := by
        rcases List.mem_cons.mp h with h1 | h1
        · exact absurd h1.symm hc
        · exact h1
      have := ih hcs
      rw [splitChars, if_neg hc]
      rw [splitChars_takeWhile] at this ⊢
      simpa using this

theorem splitChars_of_not_mem (sep : Char) (l : List Char) (h : sep ∉ l) :
    splitChars sep l = [l] := by
  induction l with
  | nil => rfl
  | cons c cs ih =>
    have hc : c ≠ sep := fun e => h (by simp [e])
    have hcs : sep ∉ cs := fun hm => h (List.mem_cons_of_mem _ hm)
    rw [splitChars, if_neg hc, ih hcs]

/-- The test `handleClient` applies to a line agrees with the protocol
wording. -/
theorem parseResultLine_eq_spec (line : String) :
    parseResultLine line = resultLineSpec line := by
  unfold parseResultLine resultLineSpec stringsSplit
  rw [splitChars_takeWhile]
  cases hd : line.data.dropWhile (fun c => c != ' ') with
  | nil => simp
  | cons c t =>
    simp only [List.map_cons]
    by_cases hsp : ' ' ∈ t
    · have hlen := splitChars_length_of_mem ' ' t hsp
      rw [if_pos hsp]
      match hs : splitChars ' ' t, hlen with
      | a :: b :: rest, _ => simp
    · rw [if_neg hsp, splitChars_of_not_mem ' ' t hsp]
      simp only [List.map_cons, List.map_nil]

theorem resultLineSpec_of_parts (movieID scoreText : String) (score : F64)
    (hm : ' ' ∉ movieID.data) (ht : ' ' ∉ scoreText.data)
    (hp : strconvParseFloat scoreText = (score, true)) :
    resultLineSpec (String.mk (movieID.data ++ ' ' :: scoreText.data)) = some (movieID, score) := by
  have htw : (movieID.data ++ ' ' :: scoreText.data).takeWhile (fun c => c != ' ') =
      movieID.data := by
    rw [List.takeWhile_append_of_pos (by intro c hc; simp; exact fun e => hm (e ▸ hc))]
    simp
  have hdw : (movieID.data ++ ' ' :: scoreText.data).dropWhile (fun c => c != ' ') =
      ' ' :: scoreText.data := by
    rw [List.dropWhile_append_of_pos (by intro c hc; simp; exact fun e => hm (e ▸ hc))]
    simp
  unfold resultLineSpec
  simp only [hdw, htw, if_neg ht]
  have hmk : String.mk scoreText.data = scoreText := rfl
  rw [hmk, hp]

theorem spaced_line_ne_END (a b : List Char) : String.mk (a ++ ' ' :: b) ≠ "END" := by
  intro h
  have hmem : ' ' ∈ (String.mk (a ++ ' ' :: b)).data := by simp
  rw [h] at hmem
  exact absurd hmem (by decide)

/-- The contributions of the lines before the first `END`, read as the
protocol words them. -/
theorem handleClientReceive_eq_mergeAll (agg : AggMap) (lines : List String) :
    handleClientReceive agg lines =
      mergeAll agg ((lines.takeWhile (fun l => decide (l ≠ "END"))).filterMap resultLineSpec) := by
  induction lines generalizing agg with
  | nil => rfl
  | cons line rest ih =>
    by_cases h : line = "END"
    · simp [handleClientReceive, h, mergeAll]
    · have hd : decide (line ≠ "END") = true := by simpa using h
      rw [handleClientReceive, if_neg h, List.takeWhile_cons, if_pos hd, parseResultLine_eq_spec]
      cases hp : resultLineSpec line with
      | none =>
        simp only [List.filterMap_cons, hp]
        exact ih agg
      | some c =>
        obtain ⟨m, s⟩ := c
        simp only [List.filterMap_cons, hp]
        rw [ih]
        rfl

theorem handleClientReceive_after_END (agg : AggMap) (lines post : List String) :
    handleClientReceive agg (lines ++ "END" :: post) = handleClientReceive agg lines := by
  induction lines generalizing agg with
  | nil => simp [handleClientReceive]
  | cons line rest ih =>
    by_cases h : line = "END"
    · simp [handleClientReceive, h]
    · simp only [List.cons_append, handleClientReceive, if_neg h]
      cases parseResultLine line with
      | none => exact ih agg
      | some c => exact ih _

/-! ## Claims about handleClient -/

/-- C9, as amended (session result merge): after the receive loop, the value
of every movie is its initial value (`0` if absent) with the scores of the
lines `<movieID> <score>` that precede the first `END` added one after the
other in arrival order, where a line counts when it holds exactly one space
and `strconv.ParseFloat` accepts the text after it, the texts `NaN`, `Inf`
and `Infinity` included (`resultLineSpec`); a movie named by no such line
keeps its previous value or stays absent; what follows the first `END`
changes nothing; and one line `movieID`, space, `scoreText` adds the parsed
score under `movieID` and touches no other movie. -/
theorem handleClientReceive_merges_session (agg : AggMap) (lines : List String) :
    (∀ movieID : String,
      mapGet (handleClientReceive agg lines) movieID =
        if (((lines.takeWhile (fun l => decide (l ≠ "END"))).filterMap resultLineSpec).filter
            (fun c => decide (c.1 = movieID))) = [] then mapGet agg movieID
        else some
          (((((lines.takeWhile (fun l => decide (l ≠ "END"))).filterMap resultLineSpec).filter
              (fun c => decide (c.1 = movieID))).map (fun c => c.2)).foldl F64.add
            ((mapGet agg movieID).getD F64.zero))) ∧
    (∀ post : List String,
      handleClientReceive agg (lines ++ "END" :: post) = handleClientReceive agg lines) ∧
    (∀ (movieID scoreText : String) (score : F64) (key : String),
      ' ' ∉ movieID.data → ' ' ∉ scoreText.data →
      strconvParseFloat scoreText = (score, true) →
      mapGet (handleClientReceive agg [String.mk (movieID.data ++ ' ' :: scoreText.data)]) key =
        if key = movieID then some (F64.add ((mapGet agg movieID).getD F64.zero) score)
        else mapGet agg key) := by
  refine ⟨?_, handleClientReceive_after_END agg lines, ?_⟩
  · intro movieID
    rw [handleClientReceive_eq_mergeAll, mapGet_mergeAll]
  · intro movieID scoreText score key hm ht hp
    rw [handleClientReceive, if_neg (spaced_line_ne_END _ _), parseResultLine_eq_spec,
      resultLineSpec_of_parts movieID scoreText score hm ht hp]
    simp only [handleClientReceive]
    exact mapGet_addScore agg movieID key score

/-- C9, counterexample: the line `m NaN` is not a `<movieID> <score>` line
with a number for score (its score text holds no digit and reads as NaN),
yet the loop merges it: after `m 2`, `m NaN`, `END` the map holds NaN for
`m`, not the `2` that the one numeric line contributes. -/
theorem handleClientReceive_nan_counterexample :
    stringsSplit "m NaN" ' ' = ["m", "NaN"] ∧
    (∀ c ∈ "NaN".data, decDigit? c = none) ∧
    strconvParseFloat "NaN" = (F64.nan, true) ∧
    handleClientReceive [] ["m 2", "m NaN", "END"] = [("m", F64.nan)] ∧
    handleClientReceive [] ["m 2", "END"] = [("m", F64.ofNat 2)] ∧
    mapGet (handleClientReceive [] ["m 2", "m NaN", "END"]) "m" ≠ some (F64.ofNat 2) := by
  refine ⟨by decide, by decide, by decide!, by decide!, by decide!, by decide!⟩

/-- C5, as amended (malformed-input tolerance): a received line other than
`END` that does not split on a space into exactly two parts, or whose second
part `strconv.ParseFloat` rejects, leaves the aggregation map as it was; the
loop goes on with the next line, and a line `movieID`, space, `scoreText`
that follows is still merged: it adds the parsed score under `movieID`. -/
theorem handleClientReceive_skips_malformed (line : String) (hne : line ≠ "END")
    (hbad : (stringsSplit line ' ').length ≠ 2 ∨
      ∃ movieID scoreText, stringsSplit line ' ' = [movieID, scoreText] ∧
        (strconvParseFloat scoreText).2 = false) :
    (∀ agg, handleClientReceive agg [line] = agg) ∧
    (∀ agg rest, handleClientReceive agg (line :: rest) = handleClientReceive agg rest) ∧
    (∀ (agg : AggMap) (movieID scoreText : String) (score : F64) (key : String),
      ' ' ∉ movieID.data → ' ' ∉ scoreText.data →
      strconvParseFloat scoreText = (score, true) →
      mapGet (handleClientReceive agg
          [line, String.mk (movieID.data ++ ' ' :: scoreText.data)]) key =
        if key = movieID then some (F64.add ((mapGet agg movieID).getD F64.zero) score)
        else mapGet agg key) := by
  have hnone : parseResultLine line = none := by
    unfold parseResultLine
    rcases hbad with h | ⟨m, t, hs, hp⟩
    · split
      · rename_i heq; rw [heq] at h; simp at h
      · rfl
    · rw [hs]
      simp only
      split
      · rename_i heq; rw [heq] at hp; simp at hp
      · rfl
  have hskip : ∀ agg rest, handleClientReceive agg (line :: rest) = handleClientReceive agg rest := by
    intro agg rest
    rw [handleClientReceive, if_neg hne, hnone]
  refine ⟨?_, hskip, ?_⟩
  · intro agg
    rw [hskip]; rfl
  · intro agg movieID scoreText score key hm ht hp
    rw [hskip, handleClientReceive, if_neg (spaced_line_ne_END _ _), parseResultLine_eq_spec,
      resultLineSpec_of_parts movieID scoreText score hm ht hp]
    simp only [handleClientReceive]
    exact mapGet_addScore agg movieID key score

/-- C5, counterexample: the score field of the line `b NaN` is not a number
(it holds no digit and reads as NaN), yet the line is not skipped: it turns
the value `5` of `b` into NaN, and the valid line `b 1` that follows cannot
bring it back to the `6` that skipping would give. -/
theorem handleClientReceive_skip_counterexample :
    ("b NaN" : String) ≠ "END" ∧
    stringsSplit "b NaN" ' ' = ["b", "NaN"] ∧
    (∀ c ∈ "NaN".data, decDigit? c = none) ∧
    (strconvParseFloat "NaN").1 = F64.nan ∧
    handleClientReceive [("b", F64.ofNat 5)] ["b NaN"] = [("b", F64.nan)] ∧
    handleClientReceive [("b", F64.ofNat 5)] ["b NaN"] ≠ [("b", F64.ofNat 5)] ∧
    handleClientReceive [("b", F64.ofNat 5)] ["b NaN", "b 1", "END"] = [("b", F64.nan)] ∧
    handleClientReceive [("b", F64.ofNat 5)] ["b 1", "END"] = [("b", F64.ofNat 6)] := by
  refine ⟨by decide, by decide, by decide, by decide!, by decide!, by decide!, by decide!,
    by decide!⟩

/-- C4, as amended (aggregation order): two arrival orders of contributions
that list the contributions of every single movie in the same relative order
give the same final map, whatever the interleaving between different
movies. -/
theorem mergeAll_order_independent_across_movies (agg : AggMap)
    (cs cs2 : List (String × F64))
    (hsame : ∀ movieID : String,
      cs.filter (fun c => decide (c.1 = movieID)) = cs2.filter (fun c => decide (c.1 = movieID))) :
    ∀ movieID : String, mapGet (mergeAll agg cs) movieID = mapGet (mergeAll agg cs2) movieID := by
  intro movieID
  rw [mapGet_mergeAll, mapGet_mergeAll, hsame movieID]

/-- C4, counterexample: the three contributions `2^53`, `1`, `1` to one movie,
merged into the empty map, give `2^53` in this order and `2^53 + 2` in the
order `1`, `1`, `2^53`: float64 addition is not associative. -/
theorem mergeAll_order_counterexample :
    ([("M", F64.ofNat (2 ^ 53)), ("M", F64.ofNat 1), ("M", F64.ofNat 1)] : List (String × F64)).Perm
        [("M", F64.ofNat 1), ("M", F64.ofNat 1), ("M", F64.ofNat (2 ^ 53))] ∧
      mapGet (mergeAll [] [("M", F64.ofNat (2 ^ 53)), ("M", F64.ofNat 1), ("M", F64.ofNat 1)]) "M" =
        some (F64.fin false (2 ^ 52) 1) ∧
      mapGet (mergeAll [] [("M", F64.ofNat 1), ("M", F64.ofNat 1), ("M", F64.ofNat (2 ^ 53))]) "M" =
        some (F64.fin false (2 ^ 52 + 1) 1) ∧
      ¬ (∀ (agg : AggMap) (cs cs2 : List (String × F64)), cs.Perm cs2 →
          ∀ movieID, mapGet (mergeAll agg cs) movieID = mapGet (mergeAll agg cs2) movieID) := by
  have hperm : ([("M", F64.ofNat (2 ^ 53)), ("M", F64.ofNat 1), ("M", F64.ofNat 1)] :
      List (String × F64)).Perm
        [("M", F64.ofNat 1), ("M", F64.ofNat 1), ("M", F64.ofNat (2 ^ 53))] :=
    @List.perm_append_comm _ [("M", F64.ofNat (2 ^ 53))]
      [("M", F64.ofNat 1), ("M", F64.ofNat 1)]
  have h1 : mapGet (mergeAll [] [("M", F64.ofNat (2 ^ 53)), ("M", F64.ofNat 1), ("M", F64.ofNat 1)]) "M" =
        some (F64.fin false (2 ^ 52) 1) := by decide!
  have h2 : mapGet (mergeAll [] [("M", F64.ofNat 1), ("M", F64.ofNat 1), ("M", F64.ofNat (2 ^ 53))]) "M" =
        some (F64.fin false (2 ^ 52 + 1) 1) := by decide!
  refine ⟨hperm, h1, h2, ?_⟩
  intro hall
  have := hall [] _ _ hperm "M"
  rw [h1, h2] at this
  exact absurd this (by decide)

/-! ## Lemmas: float64 comparison -/

theorem scaled_cast (neg : Bool) (m : Nat) (e emin : Int) (h : emin ≤ e) :
    ((F64.scaled neg m e emin : Int) : ℚ) =
      ((if neg then -1 else 1) * (m : ℚ) * (2 : ℚ) ^ e) * (2 : ℚ) ^ (-emin) := by
  unfold F64.scaled
  have hd : ((e - emin).toNat : Int) = e - emin := Int.toNat_of_nonneg (by omega)
  have hpow : ((2 : ℚ) ^ (e - emin).toNat) = (2 : ℚ) ^ e * (2 : ℚ) ^ (-emin) := by
    rw [← zpow_natCast, hd, sub_eq_add_neg, zpow_add₀ (by norm_num)]
  cases neg <;> simp [hpow] <;> ring

theorem scaled_lt_iff (s t : Bool) (m n : Nat) (e f : Int) :
    F64.scaled t n f (min e f) < F64.scaled s m e (min e f) ↔
      ((if t then -1 else 1) * (n : ℚ) * (2 : ℚ) ^ f) < ((if s then -1 else 1) * (m : ℚ) * (2 : ℚ) ^ e) := by
  have hpos : (0 : ℚ) < (2 : ℚ) ^ (-(min e f)) := zpow_pos (by norm_num) _
  rw [← Int.cast_lt (R := ℚ), scaled_cast _ _ _ _ (min_le_right e f),
    scaled_cast _ _ _ _ (min_le_left e f)]
  exact mul_lt_mul_right hpos

theorem scaled_le_iff (s t : Bool) (m n : Nat) (e f : Int) :
    F64.scaled t n f (min e f) ≤ F64.scaled s m e (min e f) ↔
      ((if t then -1 else 1) * (n : ℚ) * (2 : ℚ) ^ f) ≤ ((if s then -1 else 1) * (m : ℚ) * (2 : ℚ) ^ e) := by
  have hpos : (0 : ℚ) < (2 : ℚ) ^ (-(min e f)) := zpow_pos (by norm_num) _
  rw [← Int.cast_le (R := ℚ), scaled_cast _ _ _ _ (min_le_right e f),
    scaled_cast _ _ _ _ (min_le_left e f)]
  exact mul_le_mul_right hpos

theorem F64.gt_iff (a b : F64) (ha : a ≠ F64.nan) (hb : b ≠ F64.nan) :
    F64.gt a b = true ↔ b.toExtRat < a.toExtRat := by
  cases a with
  | nan => exact absurd rfl ha
  | inf s =>
    cases b with
    | nan => exact absurd rfl hb
    | inf t => cases s <;> cases t <;> simp [F64.gt, F64.toExtRat]
    | fin t n f =>
      cases s
      · simp only [F64.gt, F64.toExtRat, Bool.not_false, true_iff]
        exact WithBot.coe_lt_coe.mpr (WithTop.coe_lt_top _)
      · simp only [F64.gt, F64.toExtRat, Bool.not_true, Bool.false_eq_true, false_iff]
        exact not_lt_bot
  | fin s m e =>
    cases b with
    | nan => exact absurd rfl hb
    | inf t =>
      cases t
      · simp only [F64.gt, F64.toExtRat, Bool.false_eq_true, false_iff, not_lt]
        exact WithBot.coe_le_coe.mpr le_top
      · simp only [F64.gt, F64.toExtRat, true_iff]
        exact WithBot.bot_lt_coe _
    | fin t n f =>
      simp only [F64.gt, F64.toExtRat, decide_eq_true_eq, scaled_lt_iff]
      rw [WithBot.coe_lt_coe, WithTop.coe_lt_coe]

theorem F64.ge_iff (a b : F64) (ha : a ≠ F64.nan) (hb : b ≠ F64.nan) :
    F64.ge a b = true ↔ b.toExtRat ≤ a.toExtRat := by
  cases a with
  | nan => exact absurd rfl ha
  | inf s =>
    cases b with
    | nan => exact absurd rfl hb
    | inf t => cases s <;> cases t <;> simp [F64.ge, F64.toExtRat]
    | fin t n f =>
      cases s
      · simp only [F64.ge, F64.toExtRat, Bool.not_false, true_iff]
        exact WithBot.coe_le_coe.mpr le_top
      · simp only [F64.ge, F64.toExtRat, Bool.not_true, Bool.false_eq_true, false_iff, not_le]
        exact WithBot.bot_lt_coe _
  | fin s m e =>
    cases b with
    | nan => exact absurd rfl hb
    | inf t =>
      cases t
      · simp only [F64.ge, F64.toExtRat, Bool.false_eq_true, false_iff, not_le]
        exact WithBot.coe_lt_coe.mpr (WithTop.coe_lt_top _)
      · simp only [F64.ge, F64.toExtRat, true_iff]
        exact bot_le
    | fin t n f =>
      simp only [F64.ge, F64.toExtRat, decide_eq_true_eq, scaled_le_iff]
      rw [WithBot.coe_le_coe, WithTop.coe_le_coe]

theorem F64.ge_of_not_gt (a b : F64) (ha : a ≠ F64.nan) (hb : b ≠ F64.nan)
    (h : F64.gt b a = false) : F64.ge a b = true := by
  rw [F64.ge_iff a b ha hb]
  have : ¬ (a.toExtRat < b.toExtRat) := by
    rw [← F64.gt_iff b a hb ha]; simp [h]
  exact not_lt.mp this

theorem recommendationLess_strictWeak (l : List Recommendation)
    (hnan : ∀ r ∈ l, r.Score ≠ F64.nan) : StrictWeakOn recommendationLess l := by
  refine ⟨?_, ?_, ?_⟩
  · intro a ha
    have := F64.gt_iff a.Score a.Score (hnan a ha) (hnan a ha)
    unfold recommendationLess
    cases h : F64.gt a.Score a.Score
    · rfl
    · exact absurd (this.mp h) (lt_irrefl _)
  · intro a ha b hb c hc hab hbc
    unfold recommendationLess at *
    rw [F64.gt_iff _ _ (hnan a ha) (hnan b hb)] at hab
    rw [F64.gt_iff _ _ (hnan b hb) (hnan c hc)] at hbc
    rw [F64.gt_iff _ _ (hnan a ha) (hnan c hc)]
    exact lt_trans hbc hab
  · intro a ha b hb c hc hab hbc
    unfold recommendationLess at *
    have h1 : ¬ (b.Score.toExtRat < a.Score.toExtRat) := by
      rw [← F64.gt_iff _ _ (hnan a ha) (hnan b hb)]; simp [hab]
    have h2 : ¬ (c.Score.toExtRat < b.Score.toExtRat) := by
      rw [← F64.gt_iff _ _ (hnan b hb) (hnan c hc)]; simp [hbc]
    have h3 : ¬ (c.Score.toExtRat < a.Score.toExtRat) := by
      intro h
      exact h1 (lt_of_le_of_lt (not_lt.mp h2) h)
    cases h : F64.gt a.Score c.Score
    · rfl
    · exact absurd ((F64.gt_iff _ _ (hnan a ha) (hnan c hc)).mp h) h3

/-! ## Lemmas: insertion sort -/

theorem sinkLeft_perm (less : Recommendation → Recommendation → Bool) (x : Recommendation)
    (l : List Recommendation) : (sinkLeft less x l).Perm (x :: l) := by
  induction l with
  | nil => exact List.Perm.refl _
  | cons y ys ih =>
    unfold sinkLeft
    split
    · exact (List.Perm.cons y ih).trans (List.Perm.swap x y ys)
    · exact List.Perm.refl _

theorem foldl_sinkLeft_perm (less : Recommendation → Recommendation → Bool)
    (data acc : List Recommendation) :
    (data.foldl (fun sortedRev x => sinkLeft less x sortedRev) acc).Perm (data.reverse ++ acc) := by
  induction data generalizing acc with
  | nil => simp
  | cons x xs ih =>
    simp only [List.foldl_cons, List.reverse_cons, List.append_assoc, List.singleton_append]
    exact (ih _).trans (List.Perm.append_left _ (sinkLeft_perm less x acc))

theorem insertionSort_perm (less : Recommendation → Recommendation → Bool)
    (data : List Recommendation) : (insertionSort less data).Perm data := by
  unfold insertionSort
  refine (List.reverse_perm _).trans ?_
  have := foldl_sinkLeft_perm less data []
  simp only [List.append_nil] at this
  exact this.trans (List.reverse_perm _)

theorem sinkLeft_pairwise (less : Recommendation → Recommendation → Bool)
    (l : List Recommendation) (hsw : StrictWeakOn less l) (x : Recommendation) (hx : x ∈ l)
    (acc : List Recommendation) (hacc : ∀ a ∈ acc, a ∈ l)
    (hp : acc.Pairwise (fun a b => less a b = false)) :
    (sinkLeft less x acc).Pairwise (fun a b => less a b = false) := by
  obtain ⟨hirr, htr, hneg⟩ := hsw
  induction acc with
  | nil => simp [sinkLeft]
  | cons y ys ih =>
    have hy : y ∈ l := hacc y (List.mem_cons_self _ _)
    have hys : ∀ a ∈ ys, a ∈ l := fun a ha => hacc a (List.mem_cons_of_mem _ ha)
    rw [List.pairwise_cons] at hp
    unfold sinkLeft
    by_cases hxy : less x y = true
    · rw [if_pos hxy, List.pairwise_cons]
      refine ⟨?_, ih hys hp.2⟩
      intro w hw
      have hw2 : w ∈ x :: ys := (sinkLeft_perm less x ys).subset hw
      rcases List.mem_cons.mp hw2 with rfl | hw3
      · cases hyx : less y w
        · rfl
        · exact absurd (htr w hx y hy w hx hxy hyx) (by simp [hirr w hx])
      · exact hp.1 w hw3
    · rw [if_neg hxy, List.pairwise_cons]
      have hxy2 : less x y = false := by simpa using hxy
      refine ⟨?_, List.pairwise_cons.mpr hp⟩
      intro w hw
      rcases List.mem_cons.mp hw with rfl | hw3
      · exact hxy2
      · exact hneg x hx y hy w (hys w hw3) hxy2 (hp.1 w hw3)

theorem foldl_sinkLeft_pairwise (less : Recommendation → Recommendation → Bool)
    (l : List Recommendation) (hsw : StrictWeakOn less l)
    (data : List Recommendation) (hdata : ∀ a ∈ data, a ∈ l)
    (acc : List Recommendation) (hacc : ∀ a ∈ acc, a ∈ l)
    (hp : acc.Pairwise (fun a b => less a b = false)) :
    (data.foldl (fun sortedRev x => sinkLeft less x sortedRev) acc).Pairwise
      (fun a b => less a b = false) := by
  induction data generalizing acc with
  | nil => exact hp
  | cons x xs ih =>
    simp only [List.foldl_cons]
    have hx : x ∈ l := hdata x (List.mem_cons_self _ _)
    apply ih (fun a ha => hdata a (List.mem_cons_of_mem _ ha))
    · intro a ha
      rcases List.mem_cons.mp ((sinkLeft_perm less x acc).subset ha) with rfl | h
      · exact hx
      · exact hacc a h
    · exact sinkLeft_pairwise less l hsw x hx acc hacc hp

/-- Insertion sort meets the contract of `sort.Slice`. -/
theorem insertionSort_contract : SortSliceContract insertionSort := by
  intro less l
  refine ⟨insertionSort_perm less l, ?_⟩
  intro hsw
  unfold insertionSort
  rw [List.pairwise_reverse]
  exact foldl_sinkLeft_pairwise less l hsw l (fun a h => h) [] (by simp) List.Pairwise.nil

/-! ## Claim about the ranking -/

/-- C8, as amended (ranking): for a final aggregation map with `n` entries,
distinct keys and no NaN score, and any library sort meeting the contract of
`sort.Slice`, `main` prints exactly `min(3, n)` recommendations; each is an
entry of the map, no movie is repeated, the scores are non-increasing, and
every entry that is not printed has a score at most that of every printed
one. -/
theorem printedRecommendations_ranked
    (sortFn : (Recommendation → Recommendation → Bool) → List Recommendation →
      List Recommendation)
    (hsort : SortSliceContract sortFn) (agg : AggMap)
    (hkeys : (agg.map (fun p => p.1)).Nodup)
    (hnan : ∀ p ∈ agg, p.2 ≠ F64.nan) :
    (printedRecommendations sortFn agg).length = min 3 agg.length ∧
    (∀ r ∈ printedRecommendations sortFn agg, (r.MovieID, r.Score) ∈ agg) ∧
    ((printedRecommendations sortFn agg).map (fun r => r.MovieID)).Nodup ∧
    (printedRecommendations sortFn agg).Pairwise (fun a b => F64.ge a.Score b.Score = true) ∧
    (∀ p ∈ agg, ({ MovieID := p.1, Score := p.2 } : Recommendation) ∉
        printedRecommendations sortFn agg →
      ∀ r ∈ printedRecommendations sortFn agg, F64.ge r.Score p.2 = true) := by
  obtain ⟨hperm, hsorted⟩ := hsort recommendationLess (collectRecommendations agg)
  have hmem : ∀ r, r ∈ collectRecommendations agg ↔ (r.MovieID, r.Score) ∈ agg := by
    intro r
    unfold collectRecommendations
    rw [List.mem_map]
    constructor
    · rintro ⟨p, hp, rfl⟩; exact hp
    · intro h; exact ⟨(r.MovieID, r.Score), h, rfl⟩
  have hnan2 : ∀ r ∈ collectRecommendations agg, r.Score ≠ F64.nan := by
    intro r hr
    exact hnan _ ((hmem r).mp hr)
  have hnan3 : ∀ r ∈ sortFn recommendationLess (collectRecommendations agg), r.Score ≠ F64.nan :=
    fun r hr => hnan2 r (hperm.subset hr)
  have hpw := hsorted (recommendationLess_strictWeak _ hnan2)
  have hpw2 : (sortFn recommendationLess (collectRecommendations agg)).Pairwise
      (fun a b => F64.ge a.Score b.Score = true) := by
    refine List.Pairwise.imp_of_mem ?_ hpw
    intro a b ha hb hab
    exact F64.ge_of_not_gt a.Score b.Score (hnan3 a ha) (hnan3 b hb) hab
  have hsub : ((sortFn recommendationLess (collectRecommendations agg)).take 3).Sublist
      (sortFn recommendationLess (collectRecommendations agg)) := List.take_sublist _ _
  unfold printedRecommendations
  refine ⟨?_, ?_, ?_, ?_, ?_⟩
  · rw [List.length_take, hperm.length_eq]
    simp [collectRecommendations]
  · intro r hr
    exact (hmem r).mp (hperm.subset (hsub.subset hr))
  · have h1 : ((sortFn recommendationLess (collectRecommendations agg)).map
        (fun r => r.MovieID)).Nodup := by
      have hp2 := hperm.map (fun r => r.MovieID)
      rw [hp2.nodup_iff]
      simpa [collectRecommendations, Function.comp_def] using hkeys
    exact (hsub.map _).nodup h1
  · exact hpw2.sublist hsub
  · intro p hp hnot r hr
    have hin : ({ MovieID := p.1, Score := p.2 } : Recommendation) ∈
        sortFn recommendationLess (collectRecommendations agg) :=
      hperm.symm.subset ((hmem _).mpr hp)
    rw [← List.take_append_drop 3 (sortFn recommendationLess (collectRecommendations agg))] at hin hpw2
    rcases List.mem_append.mp hin with h | h
    · exact absurd h hnot
    · exact (List.pairwise_append.mp hpw2).2.2 r hr _ h

/-! ## Lemmas: the wire format -/

theorem digitChar_wireSafe (k : Nat) (hk : k < 10) :
    Nat.digitChar k ≠ ',' ∧ Nat.digitChar k ≠ Char.ofNat 10 ∧ Nat.digitChar k ≠ Char.ofNat 13 := by
  interval_cases k <;> decide

theorem toDigitsCore_wireSafe (fuel n : Nat) (acc : List Char)
    (hacc : ∀ c ∈ acc, c ≠ ',' ∧ c ≠ Char.ofNat 10 ∧ c ≠ Char.ofNat 13) :
    ∀ c ∈ Nat.toDigitsCore 10 fuel n acc, c ≠ ',' ∧ c ≠ Char.ofNat 10 ∧ c ≠ Char.ofNat 13 := by
  induction fuel generalizing n acc with
  | zero => simpa [Nat.toDigitsCore] using hacc
  | succ fuel ih =>
    have hcons : ∀ c ∈ Nat.digitChar (n % 10) :: acc,
        c ≠ ',' ∧ c ≠ Char.ofNat 10 ∧ c ≠ Char.ofNat 13 := by
      intro c hc
      rcases List.mem_cons.mp hc with rfl | h
      · exact digitChar_wireSafe _ (Nat.mod_lt _ (by decide))
      · exact hacc c h
    unfold Nat.toDigitsCore
    by_cases h0 : n / 10 = 0
    · simp only [h0, if_true]; exact hcons
    · simp only [h0, if_false]; exact ih _ _ hcons

theorem toDigits_wireSafe (n : Nat) :
    ∀ c ∈ Nat.toDigits 10 n, c ≠ ',' ∧ c ≠ Char.ofNat 10 ∧ c ≠ Char.ofNat 13 := by
  unfold Nat.toDigits
  exact toDigitsCore_wireSafe _ _ [] (by simp)

theorem padDigits_wireSafe (w n : Nat) :
    ∀ c ∈ padDigits w n, c ≠ ',' ∧ c ≠ Char.ofNat 10 ∧ c ≠ Char.ofNat 13 := by
  intro c hc
  unfold padDigits at hc
  rcases List.mem_append.mp hc with h | h
  · have : c = '0' := (List.mem_replicate.mp h).2
    subst this; decide
  · exact toDigits_wireSafe n c h

/-- The text of `%f` holds no comma, line feed or carriage return. -/
theorem formatF_wireSafe (x : F64) :
    ∀ c ∈ formatF x, c ≠ ',' ∧ c ≠ Char.ofNat 10 ∧ c ≠ Char.ofNat 13 := by
  cases x with
  | nan => decide
  | inf s => cases s <;> decide
  | fin neg m e =>
    intro c hc
    simp only [formatF, List.mem_append] at hc
    rcases hc with ((h | h) | h) | h
    · cases neg
      · simp at h
      · simp at h; subst h; decide
    · exact toDigits_wireSafe _ c h
    · simp at h; subst h; decide
    · exact padDigits_wireSafe _ _ c h

theorem formatF_ne_nil (x : F64) : formatF x ≠ [] := by
  cases x with
  | nan => decide
  | inf s => cases s <;> decide
  | fin neg m e => simp [formatF]

theorem dropCR_of_last {l : List Char} (c : Char) (hl : l.getLast? = some c)
    (hc : c ≠ Char.ofNat 13) : dropCR l = l := by
  unfold dropCR
  rw [hl]
  have : ¬ (some c = some (Char.ofNat 13)) := by simpa using hc
  rw [if_neg this]

theorem getLast?_mem {l : List Char} (hl : l ≠ []) : ∃ c, l.getLast? = some c ∧ c ∈ l := by
  refine ⟨l.getLast hl, List.getLast?_eq_getLast _ hl, List.getLast_mem hl⟩

theorem ratingLine_dropCR (r : Rating) : dropCR (ratingLine r).data = (ratingLine r).data := by
  obtain ⟨c, hc, hmem⟩ := getLast?_mem (formatF_ne_nil r.Rating)
  have hlast : (ratingLine r).data.getLast? = some c := by
    simp only [ratingLine]
    rw [List.getLast?_append, hc]
    rfl
  exact dropCR_of_last c hlast (formatF_wireSafe _ c hmem).2.2

theorem utf8Len_append (a b : List Char) : utf8Len (a ++ b) = utf8Len a + utf8Len b := by
  induction a with
  | nil => simp [utf8Len]
  | cons c cs ih =>
    rw [List.cons_append]
    simp only [utf8Len]
    rw [ih]
    omega

/-- The scanner reads one line: everything up to the next line feed. -/
theorem scanLinesAux_line (cur l rest : List Char) (hl : Char.ofNat 10 ∉ l) :
    scanLinesAux cur (l ++ Char.ofNat 10 :: rest) =
      if maxScanTokenSize ≤ utf8Len (cur ++ l) then []
      else String.mk (dropCR (cur ++ l)) :: scanLinesAux [] rest := by
  induction l generalizing cur with
  | nil => simp [scanLinesAux]
  | cons c cs ih =>
    have hc : c ≠ Char.ofNat 10 := fun e => hl (by simp [e])
    have hcs : Char.ofNat 10 ∉ cs := fun h => hl (List.mem_cons_of_mem _ h)
    rw [List.cons_append]
    simp only [scanLinesAux]
    rw [if_neg hc, ih (cur ++ [c]) hcs]
    simp [List.append_assoc]

theorem splitChars_at_sep (sep : Char) (a b : List Char) (h : sep ∉ a) :
    splitChars sep (a ++ sep :: b) = a :: splitChars sep b := by
  induction a with
  | nil => simp [splitChars]
  | cons c cs ih =>
    have hc : c ≠ sep := fun e => h (by simp [e])
    have hcs : sep ∉ cs := fun hm => h (List.mem_cons_of_mem _ hm)
    simp only [List.cons_append]
    rw [splitChars, if_neg hc, ih hcs]

theorem isPrefixOf_append_sep (p u rest : List Char) (sep : Char) (hsep : sep ∉ p)
    (hu : p.isPrefixOf u = false) : p.isPrefixOf (u ++ sep :: rest) = false := by
  induction p generalizing u with
  | nil => simp at hu
  | cons c ps ih =>
    have hc : c ≠ sep := fun e => hsep (by simp [e])
    have hps : sep ∉ ps := fun hm => hsep (List.mem_cons_of_mem _ hm)
    cases u with
    | nil => simp [List.isPrefixOf, hc]
    | cons d us =>
      simp only [List.cons_append, List.isPrefixOf, Bool.and_eq_false_imp] at hu ⊢
      intro hcd
      exact ih us hps (hu hcd)


theorem ratingLine_data (r : Rating) :
    (ratingLine r).data =
      r.UserID.data ++ ',' :: (r.MovieID.data ++ ',' :: formatF r.Rating) := by
  simp [ratingLine, List.append_assoc]

theorem ratingLine_ne_END (r : Rating) : ratingLine r ≠ "END" := by
  intro h
  have hmem : ',' ∈ (ratingLine r).data := by rw [ratingLine_data]; simp
  rw [h] at hmem
  exact absurd hmem (by decide)

theorem ratingLine_no_newline (r : Rating)
    (hu : Char.ofNat 10 ∉ r.UserID.data) (hm : Char.ofNat 10 ∉ r.MovieID.data) :
    Char.ofNat 10 ∉ (ratingLine r).data := by
  rw [ratingLine_data]
  intro h
  rcases List.mem_append.mp h with h | h
  · exact hu h
  · rcases List.mem_cons.mp h with h | h
    · exact absurd h (by decide)
    · rcases List.mem_append.mp h with h | h
      · exact hm h
      · rcases List.mem_cons.mp h with h | h
        · exact absurd h (by decide)
        · exact (formatF_wireSafe _ _ h).2.1 rfl

theorem ratingLine_split (r : Rating)
    (hu : ',' ∉ r.UserID.data) (hm : ',' ∉ r.MovieID.data) :
    stringsSplit (ratingLine r) ',' = [r.UserID, r.MovieID, String.mk (formatF r.Rating)] := by
  have hf : ',' ∉ formatF r.Rating := fun h => (formatF_wireSafe _ _ h).1 rfl
  unfold stringsSplit
  rw [ratingLine_data, splitChars_at_sep _ _ _ hu, splitChars_at_sep _ _ _ hm,
    splitChars_of_not_mem _ _ hf]
  rfl

theorem ratingLine_not_header (r : Rating)
    (hu : stringsHasPrefix r.UserID "UserID:" = false) :
    stringsHasPrefix (ratingLine r) "UserID:" = false := by
  unfold stringsHasPrefix at hu ⊢
  rw [ratingLine_data]
  exact isPrefixOf_append_sep _ _ _ ',' (by decide) hu

/-- The worker consumes the rating lines of a shard one by one. -/
theorem workerReceive_ratingLines (rs : List Rating) (cd : WorkerClientData)
    (hsafe : ∀ r ∈ rs, ',' ∉ r.UserID.data ∧ ',' ∉ r.MovieID.data ∧
      stringsHasPrefix r.UserID "UserID:" = false) :
    workerReceive cd (rs.map ratingLine ++ ["END"]) =
      { TargetUserID := cd.TargetUserID, Data := cd.Data ++ rs.map decodedRating } := by
  induction rs generalizing cd with
  | nil => simp [workerReceive]
  | cons r rs ih =>
    obtain ⟨hu, hm, hp⟩ := hsafe r (List.mem_cons_self _ _)
    have hrest : ∀ x ∈ rs, ',' ∉ x.UserID.data ∧ ',' ∉ x.MovieID.data ∧
        stringsHasPrefix x.UserID "UserID:" = false :=
      fun x hx => hsafe x (List.mem_cons_of_mem _ hx)
    simp only [List.map_cons, List.cons_append]
    rw [workerReceive, if_neg (ratingLine_ne_END r), ratingLine_not_header r hp]
    simp only [Bool.false_eq_true, if_false]
    rw [ratingLine_split r hu hm]
    simp only
    rw [ih _ hrest]
    simp [decodedRating, List.append_assoc]

/-- The scanner splits the rating lines apart. -/
theorem scanLinesAux_body (rs : List Rating) (tail : List Char)
    (hsafe : ∀ r ∈ rs, Char.ofNat 10 ∉ r.UserID.data ∧ Char.ofNat 10 ∉ r.MovieID.data ∧
      utf8Len (ratingLine r).data < maxScanTokenSize) :
    scanLinesAux [] (rs.flatMap (fun r => (ratingLine r).data ++ [Char.ofNat 10]) ++ tail) =
      rs.map ratingLine ++ scanLinesAux [] tail := by
  induction rs with
  | nil => simp
  | cons r rs ih =>
    obtain ⟨hu, hm, hlen⟩ := hsafe r (List.mem_cons_self _ _)
    have hrest := fun x hx => hsafe x (List.mem_cons_of_mem r hx)
    have hshape : (r :: rs).flatMap (fun r => (ratingLine r).data ++ [Char.ofNat 10]) ++ tail =
        (ratingLine r).data ++ Char.ofNat 10 ::
          (rs.flatMap (fun r => (ratingLine r).data ++ [Char.ofNat 10]) ++ tail) := by
      simp [List.append_assoc]
    rw [hshape, scanLinesAux_line [] _ _ (ratingLine_no_newline r hu hm)]
    simp only [List.nil_append]
    rw [if_neg (by omega), ratingLine_dropCR, ih hrest]
    rfl

theorem header_dropCR (userID : List Char) :
    ∃ rest, dropCR ('U' :: 's' :: 'e' :: 'r' :: 'I' :: 'D' :: ':' :: ' ' :: userID) =
      'U' :: 's' :: 'e' :: 'r' :: 'I' :: 'D' :: ':' :: ' ' :: rest := by
  unfold dropCR
  split
  · refine ⟨userID.dropLast, ?_⟩
    cases userID with
    | nil => rename_i h; simp at h
    | cons c cs => simp [List.dropLast]
  · exact ⟨userID, rfl⟩

theorem headerLine_data (userID : String) :
    (headerLine userID).data =
      'U' :: 's' :: 'e' :: 'r' :: 'I' :: 'D' :: ':' :: ' ' :: userID.data := rfl

/-- The worker reads the header line as header, never as data. -/
theorem workerReceive_header (userID : String) (cd : WorkerClientData) (rest : List String) :
    ∃ t, workerReceive cd (String.mk (dropCR (headerLine userID).data) :: rest) =
      workerReceive { TargetUserID := t, Data := cd.Data } rest := by
  obtain ⟨id2, hid⟩ := header_dropCR userID.data
  rw [headerLine_data, hid]
  refine ⟨stringsTrimSpace (String.mk
    (('U' :: 's' :: 'e' :: 'r' :: 'I' :: 'D' :: ':' :: ' ' :: id2).drop 7)), ?_⟩
  have hne : String.mk ('U' :: 's' :: 'e' :: 'r' :: 'I' :: 'D' :: ':' :: ' ' :: id2) ≠ "END" := by
    intro h
    have h2 := congrArg (fun s => s.data.head?) h
    simp at h2
  have hpre : stringsHasPrefix
      (String.mk ('U' :: 's' :: 'e' :: 'r' :: 'I' :: 'D' :: ':' :: ' ' :: id2)) "UserID:" = true := by
    simp [stringsHasPrefix, List.isPrefixOf]
  rw [workerReceive, if_neg hne, if_pos hpre]

/-! ## Claim about the wire protocol -/

/-- C6, as amended (protocol round trip): take a shard whose user and movie
IDs hold no comma, space or line feed, none of whose ratings has a user ID
starting with `UserID:`, and whose lines stay below the scanner limit of
65536 bytes.  The worker then decodes what `handleClient` writes into the
shard's ratings in the same order, user ID and movie ID unchanged, every
score replaced by `ParseFloat` of its `%f` text (`decodedRating`); so the
ratings come back unchanged exactly when every score survives the six-decimal
text. -/
theorem shard_round_trip (clientData : ClientData)
    (hid : ∀ c ∈ clientData.UserID.data, c ≠ ',' ∧ c ≠ ' ' ∧ c ≠ Char.ofNat 10)
    (hidLen : utf8Len (headerLine clientData.UserID).data < maxScanTokenSize)
    (hsafe : ∀ r ∈ clientData.Data,
      (∀ c ∈ r.UserID.data, c ≠ ',' ∧ c ≠ ' ' ∧ c ≠ Char.ofNat 10) ∧
      (∀ c ∈ r.MovieID.data, c ≠ ',' ∧ c ≠ ' ' ∧ c ≠ Char.ofNat 10) ∧
      stringsHasPrefix r.UserID "UserID:" = false ∧
      utf8Len (ratingLine r).data < maxScanTokenSize) :
    (workerDecode (handleClientSend clientData)).Data = clientData.Data.map decodedRating ∧
    ((workerDecode (handleClientSend clientData)).Data = clientData.Data ↔
      ∀ r ∈ clientData.Data, (strconvParseFloat (String.mk (formatF r.Rating))).1 = r.Rating) := by
  have hmain : (workerDecode (handleClientSend clientData)).Data =
      clientData.Data.map decodedRating := by
    unfold workerDecode scanLines handleClientSend
    have hshape : (headerLine clientData.UserID).data ++ [Char.ofNat 10] ++
          clientData.Data.flatMap (fun r => (ratingLine r).data ++ [Char.ofNat 10]) ++
          "END".data ++ [Char.ofNat 10] =
        (headerLine clientData.UserID).data ++ Char.ofNat 10 ::
          (clientData.Data.flatMap (fun r => (ratingLine r).data ++ [Char.ofNat 10]) ++
            ("END".data ++ [Char.ofNat 10])) := by
      simp [List.append_assoc]
    have hnl : Char.ofNat 10 ∉ (headerLine clientData.UserID).data := by
      rw [headerLine_data]
      intro h
      simp only [List.mem_cons] at h
      rcases h with h | h | h | h | h | h | h | h | h
      all_goals first
        | exact absurd h (by decide)
        | exact (hid _ h).2.2 rfl
    simp only [hshape]
    rw [scanLinesAux_line [] _ _ hnl]
    simp only [List.nil_append]
    rw [if_neg (by omega), scanLinesAux_body _ _ (fun r hr =>
      ⟨fun h => ((hsafe r hr).1 _ h).2.2 rfl, fun h => ((hsafe r hr).2.1 _ h).2.2 rfl,
        (hsafe r hr).2.2.2⟩)]
    have hend : scanLinesAux [] ("END".data ++ [Char.ofNat 10]) = ["END"] := by decide
    rw [hend]
    obtain ⟨t, ht⟩ := workerReceive_header clientData.UserID
      { TargetUserID := "", Data := [] } (clientData.Data.map ratingLine ++ ["END"])
    rw [ht, workerReceive_ratingLines _ _ (fun r hr =>
      ⟨fun h => ((hsafe r hr).1 _ h).1 rfl, fun h => ((hsafe r hr).2.1 _ h).1 rfl,
        (hsafe r hr).2.2.1⟩)]
    simp
  refine ⟨hmain, ?_⟩
  rw [hmain]
  constructor
  · intro h r hr
    have h2 : ∀ (i : Nat) (hi : i < clientData.Data.length),
        decodedRating (clientData.Data[i]) = clientData.Data[i] := by
      intro i hi
      have := congrArg (fun l => l[i]?) h
      simp only [List.getElem?_map, List.getElem?_eq_getElem hi, Option.map_some',
        Option.some.injEq] at this
      exact this
    obtain ⟨i, hi, rfl⟩ := List.getElem_of_mem hr
    have := congrArg Rating.Rating (h2 i hi)
    simpa [decodedRating] using this
  · intro h
    conv_rhs => rw [← List.map_id clientData.Data]
    apply List.map_congr_left
    intro r hr
    have := h r hr
    cases r
    simp only [decodedRating, id] at this ⊢
    rw [this]

/-! ## The scenario, counterexamples and instances -/

theorem perm_pair_cases {α : Type} (l : List α) (a b : α) (h : l.Perm [a, b]) :
    l = [a, b] ∨ l = [b, a] := by
  have hlen := h.length_eq
  match l, hlen with
  | [x, y], _ =>
    have hx : x ∈ [a, b] := h.subset (by simp)
    have hy : y ∈ [a, b] := h.subset (by simp)
    have ha : a ∈ [x, y] := h.symm.subset (by simp)
    have hb : b ∈ [x, y] := h.symm.subset (by simp)
    simp only [List.mem_cons, List.mem_singleton, List.not_mem_nil, or_false] at hx hy ha hb
    rcases hx with rfl | rfl <;> rcases hy with rfl | rfl
    · rcases hb with rfl | rfl <;> simp
    · simp
    · simp
    · rcases ha with rfl | rfl <;> simp

/-- C7, counterexample: visiting the scenario map in the order `U1`, `U3`,
`U2` (the same map; Go does not fix the order of `range`) hands `(U3,M2,4.0)`
to the first shard and `(U2,M2,3.0)` to the second, not the shards A and B of
the claim. -/
theorem scenario_order_counterexample :
    scenarioDatasetOtherOrder.Perm scenarioDataset ∧
    splitDataset scenarioDatasetOtherOrder [scenarioU1] 2 =
      some ([{ UserID := "U1", Data := [scenarioU1, scenarioU3] },
             { UserID := "U1", Data := [scenarioU1, scenarioU2] }], 1) ∧
    splitDataset scenarioDatasetOtherOrder [scenarioU1] 2 ≠
      some ([scenarioShardA, scenarioShardB], 1) := by
  refine ⟨?_, ?_, ?_⟩
  · exact List.Perm.cons _ (List.Perm.swap _ _ _)
  · decide!
  · decide!

/-- C7, as amended (end-to-end scenario): whatever the order in which the
scenario map is visited, the remaining ratings come out as `U2, U3` or as
`U3, U2`; in the first case `splitDataset` with two clients returns shard A
and shard B, in the second the same two shards with their last ratings
exchanged.  Merging the result streams `M2 3.0`, `END` and `M2 4.0`, `END`
of the two sessions into the empty map, in either order, gives exactly
`M2 ↦ 7.0`, and the first printed recommendation is `(M2, 7.0)`. -/
theorem scenario_end_to_end (userRatings : UserRatings)
    (hperm : userRatings.Perm scenarioDataset) :
    (remainingRatings userRatings "U1" = [scenarioU2, scenarioU3] ∨
      remainingRatings userRatings "U1" = [scenarioU3, scenarioU2]) ∧
    (remainingRatings userRatings "U1" = [scenarioU2, scenarioU3] →
      splitDataset userRatings [scenarioU1] 2 = some ([scenarioShardA, scenarioShardB], 1)) ∧
    (remainingRatings userRatings "U1" = [scenarioU3, scenarioU2] →
      splitDataset userRatings [scenarioU1] 2 =
        some ([{ UserID := "U1", Data := [scenarioU1, scenarioU3] },
               { UserID := "U1", Data := [scenarioU1, scenarioU2] }], 1)) ∧
    (handleClient (handleClient [] scenarioShardA "M2 3.0\nEND\n").2 scenarioShardB
        "M2 4.0\nEND\n").2 = [("M2", F64.ofNat 7)] ∧
    (handleClient (handleClient [] scenarioShardB "M2 4.0\nEND\n").2 scenarioShardA
        "M2 3.0\nEND\n").2 = [("M2", F64.ofNat 7)] ∧
    (∀ sortFn, SortSliceContract sortFn →
      (printedRecommendations sortFn [("M2", F64.ofNat 7)]).head? =
        some { MovieID := "M2", Score := F64.ofNat 7 }) := by
  have hfilter : (mapDelete userRatings "U1").Perm
      [("U2", [scenarioU2]), ("U3", [scenarioU3])] := by
    have := List.Perm.filter (fun p : String × List Rating => decide (p.1 ≠ "U1")) hperm
    have hval : List.filter (fun p : String × List Rating => decide (p.1 ≠ "U1")) scenarioDataset =
        [("U2", [scenarioU2]), ("U3", [scenarioU3])] := by decide
    rw [hval] at this
    exact this
  have hclosed := splitDataset_closed userRatings scenarioU1 [] 2 (by decide)
  have hid : scenarioU1.UserID = "U1" := rfl
  rw [hid] at hclosed
  refine ⟨?_, ?_, ?_, ?_, ?_, ?_⟩
  · unfold remainingRatings
    rcases perm_pair_cases _ _ _ hfilter with h | h
    · left; rw [h]; rfl
    · right; rw [h]; rfl
  · intro h
    rw [hclosed, h]
    decide!
  · intro h
    rw [hclosed, h]
    decide!
  · decide!
  · decide!
  · intro sortFn hsort
    have hp := (hsort recommendationLess (collectRecommendations [("M2", F64.ofNat 7)])).1
    have hs : sortFn recommendationLess (collectRecommendations [("M2", F64.ofNat 7)]) =
        [{ MovieID := "M2", Score := F64.ofNat 7 }] := List.perm_singleton.mp hp
    unfold printedRecommendations
    rw [hs]
    rfl

/-- C8, counterexample: the map `nanAggregate` (distinct keys, one NaN score,
reachable through the result line `b NaN`) is sorted by `sort.Slice`, here
insertion sort since it has four entries, into `a, b, d, c`; `main` prints
`(a, 2)`, `(b, NaN)`, `(d, 4)`, which is not in non-increasing order, and
leaves out `(c, 3)` although `3 > 2`.  And a map with the two entries `NaN`
and `1` is never printed in non-increasing order, whatever the visiting order
and the sort. -/
theorem printedRecommendations_nan_counterexample :
    handleClientReceive [] ["a 2", "b NaN", "c 3", "d 4", "END"] = nanAggregate ∧
    (nanAggregate.map (fun p => p.1)).Nodup ∧
    printedRecommendations insertionSort nanAggregate =
      [{ MovieID := "a", Score := F64.ofNat 2 }, { MovieID := "b", Score := F64.nan },
       { MovieID := "d", Score := F64.ofNat 4 }] ∧
    ¬ (printedRecommendations insertionSort nanAggregate).Pairwise
        (fun a b => F64.ge a.Score b.Score = true) ∧
    (("c", F64.ofNat 3) ∈ nanAggregate ∧
      ({ MovieID := "c", Score := F64.ofNat 3 } : Recommendation) ∉
        printedRecommendations insertionSort nanAggregate ∧
      F64.ge (F64.ofNat 2) (F64.ofNat 3) = false ∧ F64.gt (F64.ofNat 3) (F64.ofNat 2) = true) ∧
    (∀ sortFn, SortSliceContract sortFn →
      ∀ agg : AggMap, agg.Perm [("x", F64.nan), ("y", F64.ofNat 1)] →
        ¬ (printedRecommendations sortFn agg).Pairwise
            (fun a b => F64.ge a.Score b.Score = true)) := by
  have hprinted : printedRecommendations insertionSort nanAggregate =
      [{ MovieID := "a", Score := F64.ofNat 2 }, { MovieID := "b", Score := F64.nan },
       { MovieID := "d", Score := F64.ofNat 4 }] := by decide!
  refine ⟨by decide!, by decide, hprinted, ?_, ⟨by decide!, ?_, by decide!, by decide!⟩, ?_⟩
  · rw [hprinted]
    intro h
    have := (List.pairwise_cons.mp h).1 { MovieID := "b", Score := F64.nan } (by simp)
    exact absurd this (by decide!)
  · rw [hprinted]
    decide!
  · intro sortFn hsort agg hagg h
    have hp := (hsort recommendationLess (collectRecommendations agg)).1
    have hp2 : (collectRecommendations agg).Perm
        [{ MovieID := "x", Score := F64.nan }, { MovieID := "y", Score := F64.ofNat 1 }] :=
      hagg.map _
    unfold printedRecommendations at h
    rcases perm_pair_cases _ _ _ (hp.trans hp2) with hs | hs
    · rw [hs] at h
      have := (List.pairwise_cons.mp h).1 { MovieID := "y", Score := F64.ofNat 1 } (by simp)
      exact absurd this (by decide!)
    · rw [hs] at h
      have := (List.pairwise_cons.mp h).1 { MovieID := "x", Score := F64.nan } (by simp)
      exact absurd this (by decide!)

/-- C6, counterexample: both shards meet the claim's condition on the IDs.
A score of `0.1234567` is written as `0.123457` and comes back as a different
float; a rating whose user ID is `UserID:7` is read by the worker as a header
line and never reaches its rating list. -/
theorem shard_round_trip_counterexample :
    (workerDecode (handleClientSend
        { UserID := "U1",
          Data := [{ UserID := "U2", MovieID := "M2",
                     Rating := (strconvParseFloat "0.1234567").1 }] })).Data =
      [{ UserID := "U2", MovieID := "M2", Rating := (strconvParseFloat "0.123457").1 }] ∧
    (strconvParseFloat "0.123457").1 ≠ (strconvParseFloat "0.1234567").1 ∧
    (workerDecode (handleClientSend
        { UserID := "U1",
          Data := [{ UserID := "UserID:7", MovieID := "M2", Rating := F64.ofNat 3 }] })).Data =
      [] ∧
    (∀ c ∈ "U1".data ++ "U2".data ++ "M2".data ++ "UserID:7".data,
      c ≠ ',' ∧ c ≠ ' ' ∧ c ≠ Char.ofNat 10) := by
  refine ⟨by decide!, by decide!, by decide!, by decide⟩

/-! ## Instances on concrete inputs -/

/-- C1 on the scenario dataset with two clients. -/
theorem splitDataset_partition_complete_witness :
    (1 : Int) ≤ 2 ∧
    ∃ shards, splitDataset scenarioDataset (scenarioU1 :: []) 2 =
        some (shards, (scenarioU1 :: []).length) ∧
      (∀ s ∈ shards, s.Data.take (scenarioU1 :: []).length = scenarioU1 :: []) ∧
      (shards.map (fun s => (↑(s.Data.drop (scenarioU1 :: []).length) : Multiset Rating))).sum =
        (↑((scenarioDataset.filter (fun p => decide (p.1 ≠ scenarioU1.UserID))).flatMap
            (fun p => p.2)) : Multiset Rating) :=
  ⟨by decide, splitDataset_partition_complete scenarioDataset scenarioU1 [] 2 (by decide)⟩

/-- C2 on the scenario dataset with two clients. -/
theorem splitDataset_target_replicated_witness :
    (1 : Int) ≤ 2 ∧
    ∃ shards, splitDataset scenarioDataset (scenarioU1 :: []) 2 =
        some (shards, (scenarioU1 :: []).length) ∧
      (shards.length : Int) = 2 ∧
      ∀ s ∈ shards, s.UserID = scenarioU1.UserID ∧
        ∃ rest, s.Data = (scenarioU1 :: []) ++ rest ∧
          (∀ r ∈ rest, ∃ e ∈ scenarioDataset, e.1 ≠ scenarioU1.UserID ∧ r ∈ e.2) ∧
          ((∀ e ∈ scenarioDataset, ∀ r ∈ e.2, r.UserID = e.1) →
            ∀ r ∈ rest, r.UserID ≠ scenarioU1.UserID) :=
  ⟨by decide, splitDataset_target_replicated scenarioDataset scenarioU1 [] 2 (by decide)⟩

/-- C3 on the scenario dataset with two clients. -/
theorem splitDataset_round_robin_witness :
    (1 : Int) ≤ 2 ∧
    ∃ shards, splitDataset scenarioDataset (scenarioU1 :: []) 2 =
        some (shards, (scenarioU1 :: []).length) ∧
      (∀ j, j < (2 : Int).toNat →
        shards[j]?.map (fun s => s.Data) =
          some ((scenarioU1 :: []) ++
            roundRobinShare (2 : Int).toNat j
              (remainingRatings scenarioDataset scenarioU1.UserID))) ∧
      (∀ k, k < (remainingRatings scenarioDataset scenarioU1.UserID).length →
        (shards[k % (2 : Int).toNat]?.bind
            (fun s => s.Data[(scenarioU1 :: []).length + k / (2 : Int).toNat]?)) =
          (remainingRatings scenarioDataset scenarioU1.UserID)[k]?) ∧
      (∀ other : UserRatings,
        remainingRatings other scenarioU1.UserID =
          remainingRatings scenarioDataset scenarioU1.UserID →
        splitDataset other (scenarioU1 :: []) 2 = some (shards, (scenarioU1 :: []).length)) ∧
      ((2 : Int) ≤ 2 → ∀ k, k % (2 : Int).toNat ≠ (k + 1) % (2 : Int).toNat) :=
  ⟨by decide, splitDataset_round_robin scenarioDataset scenarioU1 [] 2 (by decide)⟩

/-- C10 on the scenario dataset with a target slice of five ratings and two clients. -/
theorem splitDataset_preview_in_bounds_witness :
    (1 : Int) ≤ 2 ∧
    5 ≤ (scenarioU1 :: [scenarioU1, scenarioU1, scenarioU1, scenarioU1]).length ∧
    ∃ shards,
      splitDataset scenarioDataset
          (scenarioU1 :: [scenarioU1, scenarioU1, scenarioU1, scenarioU1]) 2 =
        some (shards, (scenarioU1 :: [scenarioU1, scenarioU1, scenarioU1, scenarioU1]).length) ∧
      (∀ j, j < (2 : Int).toNat →
        shards[j]?.map (fun s => s.Data.length) =
          some ((scenarioU1 :: [scenarioU1, scenarioU1, scenarioU1, scenarioU1]).length +
            (roundRobinShare (2 : Int).toNat j
              (remainingRatings scenarioDataset scenarioU1.UserID)).length)) ∧
      (∀ s ∈ shards, 5 ≤ s.Data.length ∧
        previewFirstFive s =
          some ((scenarioU1 :: [scenarioU1, scenarioU1, scenarioU1, scenarioU1]).take 5)) :=
  ⟨by decide, by decide,
    splitDataset_preview_in_bounds scenarioDataset scenarioU1
      [scenarioU1, scenarioU1, scenarioU1, scenarioU1] 2 (by decide) (by decide)⟩

/-- C4 as amended, on two arrival orders that differ only in where the contribution to movie B stands. -/
theorem mergeAll_order_independent_across_movies_witness :
    (∀ movieID : String,
      ([("A", F64.ofNat 1), ("B", F64.ofNat 2), ("A", F64.ofNat 3)] : List (String × F64)).filter
          (fun c => decide (c.1 = movieID)) =
        ([("B", F64.ofNat 2), ("A", F64.ofNat 1), ("A", F64.ofNat 3)] : List (String × F64)).filter
          (fun c => decide (c.1 = movieID))) ∧
    ∀ movieID : String,
      mapGet (mergeAll [] [("A", F64.ofNat 1), ("B", F64.ofNat 2), ("A", F64.ofNat 3)]) movieID =
        mapGet (mergeAll [] [("B", F64.ofNat 2), ("A", F64.ofNat 1), ("A", F64.ofNat 3)]) movieID :=
  have h : ∀ movieID : String,
      ([("A", F64.ofNat 1), ("B", F64.ofNat 2), ("A", F64.ofNat 3)] : List (String × F64)).filter
          (fun c => decide (c.1 = movieID)) =
        ([("B", F64.ofNat 2), ("A", F64.ofNat 1), ("A", F64.ofNat 3)] : List (String × F64)).filter
          (fun c => decide (c.1 = movieID)) := by
    intro movieID
    by_cases hA : "A" = movieID
    · subst hA; rfl
    · by_cases hB : "B" = movieID
      · subst hB; rfl
      · simp [List.filter_cons, hA, hB]
  ⟨h, mergeAll_order_independent_across_movies [] _ _ h⟩

/-- C5 as amended, on a line whose score text `strconv.ParseFloat` rejects. -/
theorem handleClientReceive_skips_malformed_witness :
    ("M1 abc" : String) ≠ "END" ∧
    ((stringsSplit "M1 abc" ' ').length ≠ 2 ∨
      ∃ movieID scoreText, stringsSplit "M1 abc" ' ' = [movieID, scoreText] ∧
        (strconvParseFloat scoreText).2 = false) ∧
    ((∀ agg, handleClientReceive agg ["M1 abc"] = agg) ∧
    (∀ agg rest, handleClientReceive agg ("M1 abc" :: rest) = handleClientReceive agg rest) ∧
    (∀ (agg : AggMap) (movieID scoreText : String) (score : F64) (key : String),
      ' ' ∉ movieID.data → ' ' ∉ scoreText.data →
      strconvParseFloat scoreText = (score, true) →
      mapGet (handleClientReceive agg
          ["M1 abc", String.mk (movieID.data ++ ' ' :: scoreText.data)]) key =
        if key = movieID then some (F64.add ((mapGet agg movieID).getD F64.zero) score)
        else mapGet agg key)) :=
  ⟨by decide, Or.inr ⟨"M1", "abc", by decide, by decide⟩,
    handleClientReceive_skips_malformed "M1 abc" (by decide)
      (Or.inr ⟨"M1", "abc", by decide, by decide⟩)⟩

/-- C6 as amended, on shard A of the scenario. -/
theorem shard_round_trip_witness :
    (∀ c ∈ scenarioShardA.UserID.data, c ≠ ',' ∧ c ≠ ' ' ∧ c ≠ Char.ofNat 10) ∧
    utf8Len (headerLine scenarioShardA.UserID).data < maxScanTokenSize ∧
    (∀ r ∈ scenarioShardA.Data,
      (∀ c ∈ r.UserID.data, c ≠ ',' ∧ c ≠ ' ' ∧ c ≠ Char.ofNat 10) ∧
      (∀ c ∈ r.MovieID.data, c ≠ ',' ∧ c ≠ ' ' ∧ c ≠ Char.ofNat 10) ∧
      stringsHasPrefix r.UserID "UserID:" = false ∧
      utf8Len (ratingLine r).data < maxScanTokenSize) ∧
    ((workerDecode (handleClientSend scenarioShardA)).Data =
        scenarioShardA.Data.map decodedRating ∧
      ((workerDecode (handleClientSend scenarioShardA)).Data = scenarioShardA.Data ↔
        ∀ r ∈ scenarioShardA.Data,
          (strconvParseFloat (String.mk (formatF r.Rating))).1 = r.Rating)) :=
  ⟨by decide, by decide, by decide!,
    shard_round_trip scenarioShardA (by decide) (by decide) (by decide!)⟩

/-- C7 as amended, on the visiting order U1, U2, U3. -/
theorem scenario_end_to_end_witness :
    scenarioDataset.Perm scenarioDataset ∧
    ((remainingRatings scenarioDataset "U1" = [scenarioU2, scenarioU3] ∨
      remainingRatings scenarioDataset "U1" = [scenarioU3, scenarioU2]) ∧
    (remainingRatings scenarioDataset "U1" = [scenarioU2, scenarioU3] →
      splitDataset scenarioDataset [scenarioU1] 2 = some ([scenarioShardA, scenarioShardB], 1)) ∧
    (remainingRatings scenarioDataset "U1" = [scenarioU3, scenarioU2] →
      splitDataset scenarioDataset [scenarioU1] 2 =
        some ([{ UserID := "U1", Data := [scenarioU1, scenarioU3] },
               { UserID := "U1", Data := [scenarioU1, scenarioU2] }], 1)) ∧
    (handleClient (handleClient [] scenarioShardA "M2 3.0\nEND\n").2 scenarioShardB
        "M2 4.0\nEND\n").2 = [("M2", F64.ofNat 7)] ∧
    (handleClient (handleClient [] scenarioShardB "M2 4.0\nEND\n").2 scenarioShardA
        "M2 3.0\nEND\n").2 = [("M2", F64.ofNat 7)] ∧
    (∀ sortFn, SortSliceContract sortFn →
      (printedRecommendations sortFn [("M2", F64.ofNat 7)]).head? =
        some { MovieID := "M2", Score := F64.ofNat 7 })) :=
  ⟨List.Perm.refl _, scenario_end_to_end scenarioDataset (List.Perm.refl _)⟩

/-- C8 as amended, on the map built from four valid result lines, sorted by insertion sort. -/
theorem printedRecommendations_ranked_witness :
    SortSliceContract insertionSort ∧
    ((handleClientReceive [] ["a 2", "b 5", "c 3", "d 4", "END"]).map (fun p => p.1)).Nodup ∧
    (∀ p ∈ handleClientReceive [] ["a 2", "b 5", "c 3", "d 4", "END"], p.2 ≠ F64.nan) ∧
    ((printedRecommendations insertionSort
        (handleClientReceive [] ["a 2", "b 5", "c 3", "d 4", "END"])).length =
      min 3 (handleClientReceive [] ["a 2", "b 5", "c 3", "d 4", "END"]).length ∧
    (∀ r ∈ printedRecommendations insertionSort
        (handleClientReceive [] ["a 2", "b 5", "c 3", "d 4", "END"]),
      (r.MovieID, r.Score) ∈ handleClientReceive [] ["a 2", "b 5", "c 3", "d 4", "END"]) ∧
    ((printedRecommendations insertionSort
        (handleClientReceive [] ["a 2", "b 5", "c 3", "d 4", "END"])).map
      (fun r => r.MovieID)).Nodup ∧
    (printedRecommendations insertionSort
        (handleClientReceive [] ["a 2", "b 5", "c 3", "d 4", "END"])).Pairwise
      (fun a b => F64.ge a.Score b.Score = true) ∧
    (∀ p ∈ handleClientReceive [] ["a 2", "b 5", "c 3", "d 4", "END"],
      ({ MovieID := p.1, Score := p.2 } : Recommendation) ∉
          printedRecommendations insertionSort
            (handleClientReceive [] ["a 2", "b 5", "c 3", "d 4", "END"]) →
      ∀ r ∈ printedRecommendations insertionSort
          (handleClientReceive [] ["a 2", "b 5", "c 3", "d 4", "END"]),
        F64.ge r.Score p.2 = true)) :=
  ⟨insertionSort_contract, by decide!, by decide!,
    printedRecommendations_ranked insertionSort insertionSort_contract
      (handleClientReceive [] ["a 2", "b 5", "c 3", "d 4", "END"]) (by decide!) (by decide!)⟩
